import Mathlib

/-!
Verification of the JSON tokenizer and parser in `src/src/lib.rs` (crate
`rust-json`, module `parse`).

Shallow embedding conventions:

* The raw input `&str` is modelled as a `List Char`; the Rust tokenizer
  addresses the input by character index (`self.input.chars().nth(..)`), so
  the cursor `position` is a count of characters consumed.  Scanning
  functions receive the not-yet-consumed suffix of the input as a list;
  the main loop additionally carries the consumed prefix `pre` (so
  `position = pre.length` and the whole input is `pre ++ suffix`), because
  `parse_int` needs it: the slice `&self.input[start_position..position]`
  is **byte**-indexed while `position` counts **characters**, so when a
  multi-byte character has been consumed earlier (e.g. skipped by the
  catch-all arm) the slice is shifted left or lands inside a character —
  in which case Rust panics.  `byteSlice` models this exactly (including
  the panic), and `Outcome` models "returned r" versus "panicked".
  The `u32` conversion of positions is modelled as exact.
* `f64` number payloads are modelled as exact rationals (`ℚ`).
  `parseF64` models `str::parse::<f64>` on strings made of an optional
  sign followed by ASCII digits and dots — every string this embedding
  ever feeds it (exponents, `inf`, `nan` never arise and are not
  modelled); on that domain Rust's parser succeeds exactly when at most
  one `'.'` follows the optional sign with at least one digit, and every
  numeric value appearing in the concrete claims is exactly representable,
  so the rational model is faithful there.
* Loops become recursion.  The two mutually recursive parser routines and
  the tokenizer loop are defined with an explicit fuel parameter (`none`
  meaning "fuel exhausted") so that every definition is structurally
  recursive and computable; we prove that the fuel bounds used by the
  public entry points are always sufficient, so the fuel is an embedding
  artifact, not a semantic one.
-/

namespace RustJson

/-- `enum JsonToken` from the source.  `string` carries the raw characters
of the literal (no escape processing, exactly as the source), `number`
carries the parsed numeric value. -/
inductive JsonToken where
  | leftBrace
  | rightBrace
  | leftBracket
  | rightBracket
  | colon
  | comma
  | string (s : List Char)
  | number (q : ℚ)
  | true
  | false
  | null
  deriving DecidableEq, Repr

/-- `enum TokenizeError` from the source: `UnexpectedCharacter(char, u32)`.
The position is the tokenizer's cursor value (count of characters consumed,
after the most recent `next()` call) at the time of the failure. -/
inductive TokenizeError where
  | unexpectedCharacter (c : Char) (pos : Nat)
  deriving DecidableEq, Repr

/-- `enum JsonValue` from the source. -/
inductive JsonValue where
  | null
  | bool (b : Bool)
  | number (q : ℚ)
  | string (s : List Char)
  | array (elems : List JsonValue)
  | object (pairs : List (List Char × JsonValue))

/-- `enum ParseError` from the source. -/
inductive ParseError where
  | unexpectedToken (t : JsonToken)
  | unexpectedEnd
  deriving DecidableEq, Repr

/-- Outcome of running a Rust function that can panic: either a returned
value or a panic (an abnormal termination that is neither `Ok` nor `Err`). -/
inductive Outcome (α : Type) where
  | ret (r : α)
  | panicked
  deriving DecidableEq, Repr

/-- A character the numeric scanner keeps consuming: `ch.is_ascii_digit() || ch == '.'`
(the negation of `parse_int`'s stop condition). -/
def isRunChar (c : Char) : Bool := c.isDigit || c = '.'

/-- Numeric value of a run of ASCII digits. -/
def digitsVal (l : List Char) : Nat := l.foldl (fun a c => 10 * a + (c.toNat - 48)) 0

/-- Mantissa part of Rust's `str::parse::<f64>()` (after the optional sign):
it succeeds iff the string splits as `intPart ++ '.' ++ fracPart` (or has no
dot at all) with both parts made of digits and at least one digit overall;
the value is returned as an exact rational.  A second `'.'` lands in
`fracPart` and makes it fail; so does any non-digit character. -/
def parseF64Core (s : List Char) : Option ℚ :=
  let ip := s.takeWhile (fun c => c ≠ '.')
  match s.dropWhile (fun c => c ≠ '.') with
  | [] => if ip.all Char.isDigit ∧ ip ≠ [] then some (digitsVal ip : ℚ) else none
  | _ :: fp =>
    if ip.all Char.isDigit ∧ fp.all Char.isDigit ∧ (ip ≠ [] ∨ fp ≠ []) then
      some ((digitsVal ip : ℚ) + (digitsVal fp : ℚ) / (10 : ℚ) ^ fp.length)
    else none

/-- Model of Rust's `str::parse::<f64>()` on the strings this embedding
feeds it: an optional leading sign followed by the digit/dot mantissa
(exponents and `inf`/`nan` forms never arise here and are not modelled). -/
def parseF64 (s : List Char) : Option ℚ :=
  match s with
  | [] => parseF64Core []
  | c :: rest =>
    if c = '-' then (parseF64Core rest).map (fun q => -q)
    else if c = '+' then parseF64Core rest
    else parseF64Core (c :: rest)

/-- Byte offsets: each character occupies `Char.utf8Size` bytes of the
input `&str`.  `boundaryIdx s b` is the number of whole characters that
exactly fill the first `b` bytes of `s`, or `none` when byte index `b`
is not a character boundary (or past the end). -/
def boundaryIdx : List Char → Nat → Option Nat
  | _, 0 => some 0
  | [], _ + 1 => none
  | c :: rest, b + 1 =>
    if c.utf8Size ≤ b + 1 then
      (boundaryIdx rest (b + 1 - c.utf8Size)).map (fun i => i + 1)
    else none

/-- Model of the Rust byte slice `&s[a..b]` (indices in **bytes**),
returned as the characters it covers; `none` models the panic raised when
an index is out of range or not a character boundary. -/
def byteSlice (s : List Char) (a b : Nat) : Option (List Char) :=
  match boundaryIdx s a, boundaryIdx s b with
  | some i, some j => if i ≤ j then some ((s.take j).drop i) else none
  | _, _ => none

/-- `JsonTokenizer::parse_int`, entered with the cursor rewound to the first
digit of the run.  Arguments: `rem` is the unconsumed input suffix, `pre`
the characters consumed before the run started (so `start_position =
pre.length` and the whole input is `pre ++ acc ++ rem`), `acc` the run
characters consumed so far.  On a non-numeric character the cursor is moved
back one step, and the number string is the **byte**-indexed slice
`&input[start_position..position]` — with `start_position` and `position`
being *character* counts, exactly as in the source, so the slice
desynchronizes (or panics) when a multi-byte character occurs in `pre`.
The reported error position is the cursor value after the rewind,
`pre.length + acc.length`.  At end of input the failed `next()` still
increments the cursor and no slice is taken. -/
def parseInt : List Char → List Char → List Char →
    Outcome (Except TokenizeError (JsonToken × List Char × Nat))
  | [], pre, acc => .ret (.error (.unexpectedCharacter '\x00' (pre.length + acc.length + 1)))
  | c :: rest, pre, acc =>
    if isRunChar c then
      parseInt rest pre (acc ++ [c])
    else
      match byteSlice (pre ++ acc ++ c :: rest) pre.length (pre.length + acc.length) with
      | none => .panicked
      | some numberStr =>
        match parseF64 numberStr with
        | some q => .ret (.ok (.number q, c :: rest, pre.length + acc.length))
        | none => .ret (.error (.unexpectedCharacter c (pre.length + acc.length)))

/-- `JsonTokenizer::parse_string`, entered just after the opening quote was
consumed.  Consumes characters verbatim (no escape handling) until a closing
quote; reaching end of input reports `'"'` at the cursor value after the
failed `next()`. -/
def parseString : List Char → Nat → List Char → Except TokenizeError (JsonToken × List Char × Nat)
  | [], k, _ => .error (.unexpectedCharacter '"' (k + 1))
  | c :: rest, k, acc =>
    if c = '"' then .ok (.string acc, rest, k + 1)
    else parseString rest (k + 1) (acc ++ [c])

/-- `JsonTokenizer::parse_keyword`: matches the remaining keyword characters
`kw` one by one against the input.  (The source rewinds one step and re-checks
the dispatch character as well; since the dispatch character is by construction
the keyword's first character, that first comparison always succeeds, and the
call sites below pass the keyword tail.)  A mismatching character `c` is
reported at the cursor value after reading it; end of input reports `'\0'`. -/
def parseKeyword : List Char → Nat → List Char → JsonToken → Except TokenizeError (JsonToken × List Char × Nat)
  | rem, k, [], tok => .ok (tok, rem, k)
  | [], k, _ :: _, _ => .error (.unexpectedCharacter '\x00' (k + 1))
  | c :: rest, k, e :: kwRest, tok =>
    if c = e then parseKeyword rest (k + 1) kwRest tok
    else .error (.unexpectedCharacter c (k + 1))

/-- Prepend a token to the result of tokenizing the rest of the input
(`tokens.push(..)` in the source's loop); errors, panics and the
out-of-fuel marker pass through. -/
def consTok (t : JsonToken) :
    Option (Outcome (Except TokenizeError (List JsonToken))) →
    Option (Outcome (Except TokenizeError (List JsonToken)))
  | some (.ret (.ok ts)) => some (.ret (.ok (t :: ts)))
  | r => r

/-- One tokenizer-loop step around a scanning helper: push the token and
continue, or propagate the helper's error (the source's
`tokens.push(self.parse_xxx()?)`). -/
def tokStep (res : Except TokenizeError (JsonToken × List Char × Nat))
    (cont : List Char → Option (Outcome (Except TokenizeError (List JsonToken)))) :
    Option (Outcome (Except TokenizeError (List JsonToken))) :=
  match res with
  | .error e => some (.ret (.error e))
  | .ok (t, rem', _) => consTok t (cont rem')

/-- The digit-branch step: `parse_int` may additionally panic, which aborts
the whole run. -/
def tokStepP (res : Outcome (Except TokenizeError (JsonToken × List Char × Nat)))
    (cont : List Char → Option (Outcome (Except TokenizeError (List JsonToken)))) :
    Option (Outcome (Except TokenizeError (List JsonToken))) :=
  match res with
  | .panicked => some .panicked
  | .ret r => tokStep r cont

/-- The cursor prefix after a helper returned: the helper consumed the
characters of `before` that are no longer in its returned suffix `after`
(the helpers only ever pop characters off the front, so this is exactly
the consumed run). -/
def advance (pre before after : List Char) : List Char :=
  pre ++ before.take (before.length - after.length)

/-- The loop of `JsonTokenizer::tokenize`, with explicit fuel (`none` =
fuel exhausted; `tokenize` below always supplies enough).  `rem` is the
unconsumed suffix and `pre` the consumed prefix (the cursor value is
`pre.length`).  Dispatch order and the silent skip of unrecognized
characters follow the source's `match` exactly; for digits the source
rewinds and lets `parse_int` re-consume the digit, and for keywords
`parse_keyword` re-matches the dispatch letter, both modelled by passing
the already-consumed character into the callee (see
`parseInt`/`parseKeyword`).  A panic in `parse_int` aborts the whole run. -/
def tokenizeAux : Nat → List Char → List Char →
    Option (Outcome (Except TokenizeError (List JsonToken)))
  | 0, _, _ => none
  | _ + 1, [], _ => some (.ret (.ok []))
  | f + 1, c :: rest, pre =>
    if c = '{' then consTok .leftBrace (tokenizeAux f rest (pre ++ [c]))
    else if c = '}' then consTok .rightBrace (tokenizeAux f rest (pre ++ [c]))
    else if c = ',' then consTok .comma (tokenizeAux f rest (pre ++ [c]))
    else if c = ':' then consTok .colon (tokenizeAux f rest (pre ++ [c]))
    else if c = '[' then consTok .leftBracket (tokenizeAux f rest (pre ++ [c]))
    else if c = ']' then consTok .rightBracket (tokenizeAux f rest (pre ++ [c]))
    else if c.isDigit then
      tokStepP (parseInt rest pre [c])
        (fun rem' => tokenizeAux f rem' (advance pre (c :: rest) rem'))
    else if c = '"' then
      tokStep (parseString rest (pre.length + 1) [])
        (fun rem' => tokenizeAux f rem' (advance pre (c :: rest) rem'))
    else if c = 't' then
      tokStep (parseKeyword rest (pre.length + 1) ['r', 'u', 'e'] .true)
        (fun rem' => tokenizeAux f rem' (advance pre (c :: rest) rem'))
    else if c = 'f' then
      tokStep (parseKeyword rest (pre.length + 1) ['a', 'l', 's', 'e'] .false)
        (fun rem' => tokenizeAux f rem' (advance pre (c :: rest) rem'))
    else if c = 'n' then
      tokStep (parseKeyword rest (pre.length + 1) ['u', 'l', 'l'] .null)
        (fun rem' => tokenizeAux f rem' (advance pre (c :: rest) rem'))
    else tokenizeAux f rest (pre ++ [c])

/-- `JsonTokenizer::new(input)` followed by `tokenize()`: scan the whole
input starting from cursor 0 (empty consumed prefix).  The result is
`Outcome`-wrapped: `.ret (.ok _)`, `.ret (.error _)`, or `.panicked` when
`parse_int`'s byte slice hits a non-boundary index.  Each loop iteration
consumes at least one character, so `input.length + 1` units of fuel
always suffice (proved in `tokenizeAux_fuel_sufficient`); the `getD`
default is never reached. -/
def tokenize (s : List Char) : Outcome (Except TokenizeError (List JsonToken)) :=
  (tokenizeAux (s.length + 1) s []).getD (.ret (.error (.unexpectedCharacter '\x00' 0)))

/-!
The parser.  `JsonParser` walks the token slice with a cursor; we pass the
unconsumed suffix and return, alongside the parsed value, the number of
tokens consumed (the amount the cursor advanced), so the caller resumes at
`ts.drop n`.  The single-step rewind in `parse_array` re-reads the current
token, i.e. the recursive `parse` call starts at the same suffix the loop
iteration started at.  All three routines carry fuel (`none` = exhausted);
`parseValAux (2 * ts.length + 1)` is always enough (`parseValAux_fuel`). -/

mutual

/-- `JsonParser::parse`: dispatch on the next token. -/
def parseValAux : Nat → List JsonToken → Option (Except ParseError (JsonValue × Nat))
  | 0, _ => none
  | _ + 1, [] => some (.error .unexpectedEnd)
  | f + 1, t :: rest =>
    match t with
    | .null => some (.ok (.null, 1))
    | .true => some (.ok (.bool Bool.true, 1))
    | .false => some (.ok (.bool Bool.false, 1))
    | .number q => some (.ok (.number q, 1))
    | .string s => some (.ok (.string s, 1))
    | .leftBrace =>
      match parseObjectAux f rest [] with
      | none => none
      | some (.error e) => some (.error e)
      | some (.ok (v, n)) => some (.ok (v, n + 1))
    | .leftBracket =>
      match parseArrayAux f rest [] with
      | none => none
      | some (.error e) => some (.error e)
      | some (.ok (v, n)) => some (.ok (v, n + 1))
    | t => some (.error (.unexpectedToken t))

/-- `JsonParser::parse_object`: the loop after the opening brace was
consumed.  `acc` is the accumulated pair vector.  Note that in the source
both `else` branches around the colon and the catch-all after a pair reuse
`token` — the *key* token — in `UnexpectedToken`, and also catch the
end-of-tokens case, so exhaustion there does not produce `UnexpectedEnd`. -/
def parseObjectAux : Nat → List JsonToken → List (List Char × JsonValue) →
    Option (Except ParseError (JsonValue × Nat))
  | 0, _, _ => none
  | _ + 1, [], _ => some (.error .unexpectedEnd)
  | f + 1, t :: rest, acc =>
    match t with
    | .rightBrace => some (.ok (.object acc, 1))
    | .string key =>
      match rest with
      | .colon :: rest2 =>
        match parseValAux f rest2 with
        | none => none
        | some (.error e) => some (.error e)
        | some (.ok (v, n)) =>
          match rest2.drop n with
          | .comma :: rest4 =>
            match parseObjectAux f rest4 (acc ++ [(key, v)]) with
            | none => none
            | some (.error e) => some (.error e)
            | some (.ok (w, m)) => some (.ok (w, 3 + n + m))
          | .rightBrace :: _ => some (.ok (.object (acc ++ [(key, v)]), 3 + n))
          | _ => some (.error (.unexpectedToken (.string key)))
      | _ => some (.error (.unexpectedToken (.string key)))
    | t => some (.error (.unexpectedToken t))

/-- `JsonParser::parse_array`: the loop after the opening bracket was
consumed.  On a token other than `]` the cursor is rewound one step and
`parse` re-reads it (hence the recursive call on `t :: rest` itself); the
catch-all after an element reuses `token` — the *first token of the
element* — and also catches the end-of-tokens case. -/
def parseArrayAux : Nat → List JsonToken → List JsonValue →
    Option (Except ParseError (JsonValue × Nat))
  | 0, _, _ => none
  | _ + 1, [], _ => some (.error .unexpectedEnd)
  | f + 1, t :: rest, acc =>
    match t with
    | .rightBracket => some (.ok (.array acc, 1))
    | t =>
      match parseValAux f (t :: rest) with
      | none => none
      | some (.error e) => some (.error e)
      | some (.ok (v, n)) =>
        match (t :: rest).drop n with
        | .comma :: rest4 =>
          match parseArrayAux f rest4 (acc ++ [v]) with
          | none => none
          | some (.error e) => some (.error e)
          | some (.ok (w, m)) => some (.ok (w, n + 1 + m))
        | .rightBracket :: _ => some (.ok (.array (acc ++ [v]), n + 1))
        | _ => some (.error (.unexpectedToken t))

end

/-- `JsonParser::parse` with the fuel canonically instantiated: returns the
parsed value and the number of tokens consumed.  `2 * ts.length + 1` fuel is
always sufficient (`parseValAux_fuel`), so the `getD` default is never
reached. -/
def parseVal (ts : List JsonToken) : Except ParseError (JsonValue × Nat) :=
  (parseValAux (2 * ts.length + 1) ts).getD (.error .unexpectedEnd)

/-- `parse_object`'s loop with canonical fuel (used to state lemmas about
object parsing without fuel bookkeeping). -/
def parseObject (ts : List JsonToken) (acc : List (List Char × JsonValue)) :
    Except ParseError (JsonValue × Nat) :=
  (parseObjectAux (2 * ts.length + 1) ts acc).getD (.error .unexpectedEnd)

/-- `parse_array`'s loop with canonical fuel. -/
def parseArray (ts : List JsonToken) (acc : List JsonValue) :
    Except ParseError (JsonValue × Nat) :=
  (parseArrayAux (2 * ts.length + 2) ts acc).getD (.error .unexpectedEnd)

/-- `JsonParser::new(tokens)` followed by `parse()`: the cursor's final
position is discarded, so trailing tokens are ignored. -/
def parseTokens (ts : List JsonToken) : Except ParseError JsonValue :=
  match parseVal ts with
  | .ok (v, _) => .ok v
  | .error e => .error e

/-! ### Consumption bounds for the scanning helpers -/

theorem parseInt_ok_length : ∀ rem pre acc t rem' k',
    parseInt rem pre acc = .ret (.ok (t, rem', k')) → rem'.length ≤ rem.length := by
  intro rem
  induction rem with
  | nil => intro pre acc t rem' k' h; simp [parseInt] at h
  | cons c rest ih =>
    intro pre acc t rem' k' h
    rw [parseInt] at h
    by_cases hc : isRunChar c
    · rw [if_pos hc] at h
      exact le_trans (ih _ _ _ _ _ h) (Nat.le_succ _)
    · rw [if_neg hc] at h
      cases hb : byteSlice (pre ++ acc ++ c :: rest) pre.length (pre.length + acc.length) with
      | none => rw [hb] at h; exact absurd h (by simp)
      | some numberStr =>
        rw [hb] at h
        dsimp only at h
        cases hq : parseF64 numberStr with
        | some q =>
          rw [hq] at h
          have h2 : rem' = c :: rest := by
            injection h with h; injection h with h; injection h with _ h
            exact congrArg Prod.fst h.symm
          rw [h2]
        | none => rw [hq] at h; exact absurd h (by simp)

theorem parseString_ok_length : ∀ rem k acc t rem' k',
    parseString rem k acc = .ok (t, rem', k') → rem'.length ≤ rem.length := by
  intro rem
  induction rem with
  | nil => intro k acc t rem' k' h; simp [parseString] at h
  | cons c rest ih =>
    intro k acc t rem' k' h
    rw [parseString] at h
    by_cases hc : c = '"'
    · rw [if_pos hc] at h
      have h2 : rem' = rest := by
        injection h with h; injection h with _ h; exact congrArg Prod.fst h.symm
      rw [h2]; exact Nat.le_succ _
    · rw [if_neg hc] at h
      exact le_trans (ih _ _ _ _ _ h) (Nat.le_succ _)

theorem parseKeyword_ok_length : ∀ kw rem k tok t rem' k',
    parseKeyword rem k kw tok = .ok (t, rem', k') → rem'.length ≤ rem.length := by
  intro kw
  induction kw with
  | nil =>
    intro rem k tok t rem' k' h
    rw [parseKeyword] at h
    have h2 : rem' = rem := by
      injection h with h; injection h with _ h; exact congrArg Prod.fst h.symm
    rw [h2]
  | cons e kwRest ih =>
    intro rem k tok t rem' k' h
    cases rem with
    | nil => simp [parseKeyword] at h
    | cons c rest =>
      rw [parseKeyword] at h
      by_cases hc : c = e
      · rw [if_pos hc] at h
        exact le_trans (ih _ _ _ _ _ _ h) (Nat.le_succ _)
      · rw [if_neg hc] at h; exact absurd h (by simp)

/-! ### Fuel adequacy for the tokenizer loop -/

/-- Continuing the main loop is monotone in fuel: helper step. -/
theorem consTok_mono (t : JsonToken)
    (o o' : Option (Outcome (Except TokenizeError (List JsonToken))))
    (hmono : ∀ r, o = some r → o' = some r) :
    ∀ r, consTok t o = some r → consTok t o' = some r := by
  intro r h
  cases ho : o with
  | none => rw [ho] at h; simp [consTok] at h
  | some r0 => rw [ho] at h; rw [hmono r0 ho]; exact h

theorem tokStep_mono (res : Except TokenizeError (JsonToken × List Char × Nat))
    (cont cont' : List Char → Option (Outcome (Except TokenizeError (List JsonToken))))
    (hmono : ∀ rem' r, cont rem' = some r → cont' rem' = some r) :
    ∀ r, tokStep res cont = some r → tokStep res cont' = some r := by
  intro r h
  cases res with
  | error e => exact h
  | ok out =>
    obtain ⟨t, rem', k'⟩ := out
    exact consTok_mono t _ _ (hmono rem') r h

theorem tokStepP_mono (res : Outcome (Except TokenizeError (JsonToken × List Char × Nat)))
    (cont cont' : List Char → Option (Outcome (Except TokenizeError (List JsonToken))))
    (hmono : ∀ rem' r, cont rem' = some r → cont' rem' = some r) :
    ∀ r, tokStepP res cont = some r → tokStepP res cont' = some r := by
  intro r h
  cases res with
  | panicked => exact h
  | ret r0 => exact tokStep_mono r0 cont cont' hmono r h

/-- The loop body of `tokenizeAux` at nonzero fuel, written with the step
combinators. -/
theorem tokenizeAux_cons (f : Nat) (c : Char) (rest pre : List Char) :
    tokenizeAux (f + 1) (c :: rest) pre =
    (if c = '{' then consTok .leftBrace (tokenizeAux f rest (pre ++ [c]))
    else if c = '}' then consTok .rightBrace (tokenizeAux f rest (pre ++ [c]))
    else if c = ',' then consTok .comma (tokenizeAux f rest (pre ++ [c]))
    else if c = ':' then consTok .colon (tokenizeAux f rest (pre ++ [c]))
    else if c = '[' then consTok .leftBracket (tokenizeAux f rest (pre ++ [c]))
    else if c = ']' then consTok .rightBracket (tokenizeAux f rest (pre ++ [c]))
    else if c.isDigit then
      tokStepP (parseInt rest pre [c])
        (fun rem' => tokenizeAux f rem' (advance pre (c :: rest) rem'))
    else if c = '"' then
      tokStep (parseString rest (pre.length + 1) [])
        (fun rem' => tokenizeAux f rem' (advance pre (c :: rest) rem'))
    else if c = 't' then
      tokStep (parseKeyword rest (pre.length + 1) ['r', 'u', 'e'] .true)
        (fun rem' => tokenizeAux f rem' (advance pre (c :: rest) rem'))
    else if c = 'f' then
      tokStep (parseKeyword rest (pre.length + 1) ['a', 'l', 's', 'e'] .false)
        (fun rem' => tokenizeAux f rem' (advance pre (c :: rest) rem'))
    else if c = 'n' then
      tokStep (parseKeyword rest (pre.length + 1) ['u', 'l', 'l'] .null)
        (fun rem' => tokenizeAux f rem' (advance pre (c :: rest) rem'))
    else tokenizeAux f rest (pre ++ [c])) := by
  rw [tokenizeAux]


theorem tokenizeAux_mono : ∀ f rem pre r,
    tokenizeAux f rem pre = some r → tokenizeAux (f + 1) rem pre = some r := by
  intro f
  induction f with
  | zero => intro rem pre r h; simp [tokenizeAux] at h
  | succ f ih =>
    intro rem pre r h
    cases rem with
    | nil => simpa [tokenizeAux] using h
    | cons c rest =>
      rw [tokenizeAux_cons] at h
      rw [tokenizeAux_cons]
      have hstep : ∀ rem' r,
          tokenizeAux f rem' (advance pre (c :: rest) rem') = some r →
          tokenizeAux (f + 1) rem' (advance pre (c :: rest) rem') = some r :=
        fun rem' r hr => ih rem' _ r hr
      by_cases h1 : c = '{'
      · rw [if_pos h1] at h ⊢; exact consTok_mono _ _ _ (ih rest (pre ++ [c])) r h
      rw [if_neg h1] at h ⊢
      by_cases h2 : c = '}'
      · rw [if_pos h2] at h ⊢; exact consTok_mono _ _ _ (ih rest (pre ++ [c])) r h
      rw [if_neg h2] at h ⊢
      by_cases h3 : c = ','
      · rw [if_pos h3] at h ⊢; exact consTok_mono _ _ _ (ih rest (pre ++ [c])) r h
      rw [if_neg h3] at h ⊢
      by_cases h4 : c = ':'
      · rw [if_pos h4] at h ⊢; exact consTok_mono _ _ _ (ih rest (pre ++ [c])) r h
      rw [if_neg h4] at h ⊢
      by_cases h5 : c = '['
      · rw [if_pos h5] at h ⊢; exact consTok_mono _ _ _ (ih rest (pre ++ [c])) r h
      rw [if_neg h5] at h ⊢
      by_cases h6 : c = ']'
      · rw [if_pos h6] at h ⊢; exact consTok_mono _ _ _ (ih rest (pre ++ [c])) r h
      rw [if_neg h6] at h ⊢
      by_cases h7 : c.isDigit
      · rw [if_pos h7] at h ⊢; exact tokStepP_mono _ _ _ hstep r h
      rw [if_neg h7] at h ⊢
      by_cases h8 : c = '"'
      · rw [if_pos h8] at h ⊢; exact tokStep_mono _ _ _ hstep r h
      rw [if_neg h8] at h ⊢
      by_cases h9 : c = 't'
      · rw [if_pos h9] at h ⊢; exact tokStep_mono _ _ _ hstep r h
      rw [if_neg h9] at h ⊢
      by_cases h10 : c = 'f'
      · rw [if_pos h10] at h ⊢; exact tokStep_mono _ _ _ hstep r h
      rw [if_neg h10] at h ⊢
      by_cases h11 : c = 'n'
      · rw [if_pos h11] at h ⊢; exact tokStep_mono _ _ _ hstep r h
      rw [if_neg h11] at h ⊢
      exact ih _ _ _ h

theorem tokenizeAux_mono_le {f g : Nat} (hfg : f ≤ g) :
    ∀ rem pre r, tokenizeAux f rem pre = some r → tokenizeAux g rem pre = some r := by
  induction g with
  | zero => intro rem pre r h; rw [Nat.le_zero.mp hfg] at h; exact h
  | succ g ih =>
    intro rem pre r h
    rcases Nat.lt_or_ge f (g + 1) with hlt | hge
    · exact tokenizeAux_mono g rem pre r (ih (Nat.lt_succ_iff.mp hlt) rem pre r h)
    · rw [Nat.le_antisymm hfg hge] at h; exact h

/-- Every iteration of the tokenizer loop consumes at least one character,
so fuel exceeding the number of unconsumed characters never runs out: the
loop always terminates (returning or panicking) within that many steps. -/
theorem tokenizeAux_fuel_sufficient :
    ∀ f rem pre, rem.length < f → ∃ r, tokenizeAux f rem pre = some r := by
  intro f
  induction f with
  | zero => intro rem pre h; exact absurd h (Nat.not_lt_zero _)
  | succ f ih =>
    intro rem pre hlen
    cases rem with
    | nil => exact ⟨.ret (.ok []), by rw [tokenizeAux]⟩
    | cons c rest =>
      have hrest : rest.length < f := Nat.lt_of_succ_lt_succ hlen
      have hcons : ∀ t, ∃ r, consTok t (tokenizeAux f rest (pre ++ [c])) = some r := by
        intro t
        obtain ⟨r0, hr0⟩ := ih rest (pre ++ [c]) hrest
        cases r0 with
        | ret r1 =>
          cases r1 with
          | ok ts => exact ⟨.ret (.ok (t :: ts)), by rw [hr0]; rfl⟩
          | error e => exact ⟨.ret (.error e), by rw [hr0]; rfl⟩
        | panicked => exact ⟨.panicked, by rw [hr0]; rfl⟩
      have hstep : ∀ res : Except TokenizeError (JsonToken × List Char × Nat),
          (∀ t rem' k', res = .ok (t, rem', k') → rem'.length ≤ rest.length) →
          ∃ r, tokStep res
            (fun rem' => tokenizeAux f rem' (advance pre (c :: rest) rem')) = some r := by
        intro res hres
        cases res with
        | error e => exact ⟨.ret (.error e), rfl⟩
        | ok out =>
          obtain ⟨t, rem', k'⟩ := out
          have : rem'.length < f := Nat.lt_of_le_of_lt (hres t rem' k' rfl) hrest
          obtain ⟨r0, hr0⟩ := ih rem' (advance pre (c :: rest) rem') this
          cases r0 with
          | ret r1 =>
            cases r1 with
            | ok ts =>
              exact ⟨.ret (.ok (t :: ts)), by
                show consTok t (tokenizeAux f rem' (advance pre (c :: rest) rem')) = _
                rw [hr0]; rfl⟩
            | error e =>
              exact ⟨.ret (.error e), by
                show consTok t (tokenizeAux f rem' (advance pre (c :: rest) rem')) = _
                rw [hr0]; rfl⟩
          | panicked =>
            exact ⟨.panicked, by
              show consTok t (tokenizeAux f rem' (advance pre (c :: rest) rem')) = _
              rw [hr0]; rfl⟩
      rw [tokenizeAux_cons]
      by_cases h1 : c = '{'
      · rw [if_pos h1]; exact hcons _
      rw [if_neg h1]
      by_cases h2 : c = '}'
      · rw [if_pos h2]; exact hcons _
      rw [if_neg h2]
      by_cases h3 : c = ','
      · rw [if_pos h3]; exact hcons _
      rw [if_neg h3]
      by_cases h4 : c = ':'
      · rw [if_pos h4]; exact hcons _
      rw [if_neg h4]
      by_cases h5 : c = '['
      · rw [if_pos h5]; exact hcons _
      rw [if_neg h5]
      by_cases h6 : c = ']'
      · rw [if_pos h6]; exact hcons _
      rw [if_neg h6]
      by_cases h7 : c.isDigit
      · rw [if_pos h7]
        cases hp : parseInt rest pre [c] with
        | panicked => exact ⟨.panicked, rfl⟩
        | ret res =>
          obtain ⟨r, hr⟩ :=
            hstep res (fun t rem' k' he =>
              parseInt_ok_length _ _ _ _ _ _ (hp.trans (congrArg Outcome.ret he)))
          exact ⟨r, hr⟩
      rw [if_neg h7]
      by_cases h8 : c = '"'
      · rw [if_pos h8]
        exact hstep _ (fun t rem' k' he => parseString_ok_length _ _ _ _ _ _ he)
      rw [if_neg h8]
      by_cases h9 : c = 't'
      · rw [if_pos h9]
        exact hstep _ (fun t rem' k' he => parseKeyword_ok_length _ _ _ _ _ _ _ he)
      rw [if_neg h9]
      by_cases h10 : c = 'f'
      · rw [if_pos h10]
        exact hstep _ (fun t rem' k' he => parseKeyword_ok_length _ _ _ _ _ _ _ he)
      rw [if_neg h10]
      by_cases h11 : c = 'n'
      · rw [if_pos h11]
        exact hstep _ (fun t rem' k' he => parseKeyword_ok_length _ _ _ _ _ _ _ he)
      rw [if_neg h11]
      exact ih rest (pre ++ [c]) hrest

/-- `tokenizeAux` with the canonical fuel of `tokenize` computes `tokenize`. -/
theorem tokenizeAux_eq_tokenize (s : List Char) :
    tokenizeAux (s.length + 1) s [] = some (tokenize s) := by
  obtain ⟨r, hr⟩ := tokenizeAux_fuel_sufficient (s.length + 1) s [] (Nat.lt_succ_self _)
  rw [tokenize, hr]
  rfl

/-- Any sufficiently large fuel computes `tokenize`. -/
theorem tokenizeAux_eq_tokenize_of_le (s : List Char) (f : Nat) (hf : s.length < f) :
    tokenizeAux f s [] = some (tokenize s) :=
  tokenizeAux_mono_le hf s [] (tokenize s) (tokenizeAux_eq_tokenize s)

/-! ### Fuel adequacy for the parser -/

theorem parseAux_mono : ∀ f,
    (∀ ts r, parseValAux f ts = some r → parseValAux (f + 1) ts = some r) ∧
    (∀ ts acc r, parseObjectAux f ts acc = some r → parseObjectAux (f + 1) ts acc = some r) ∧
    (∀ ts acc r, parseArrayAux f ts acc = some r → parseArrayAux (f + 1) ts acc = some r) := by
  intro f
  induction f with
  | zero =>
    refine ⟨?_, ?_, ?_⟩
    · intro ts r h; simp [parseValAux] at h
    · intro ts acc r h; simp [parseObjectAux] at h
    · intro ts acc r h; simp [parseArrayAux] at h
  | succ f ih =>
    obtain ⟨ihv, iho, iha⟩ := ih
    refine ⟨?_, ?_, ?_⟩
    · intro ts r h
      cases ts with
      | nil => exact h
      | cons t rest =>
        cases t with
        | leftBrace =>
          simp only [parseValAux] at h ⊢
          cases hp : parseObjectAux f rest [] with
          | none => rw [hp] at h; exact absurd h (by simp)
          | some r' =>
            rw [iho _ _ _ hp]
            rw [hp] at h
            exact h
        | leftBracket =>
          simp only [parseValAux] at h ⊢
          cases hp : parseArrayAux f rest [] with
          | none => rw [hp] at h; exact absurd h (by simp)
          | some r' =>
            rw [iha _ _ _ hp]
            rw [hp] at h
            exact h
        | _ => exact h
    · intro ts acc r h
      cases ts with
      | nil => exact h
      | cons t rest =>
        cases t with
        | string key =>
          cases rest with
          | nil => exact h
          | cons t2 rest2 =>
            cases t2 with
            | colon =>
              simp only [parseObjectAux] at h ⊢
              cases hp : parseValAux f rest2 with
              | none => rw [hp] at h; exact absurd h (by simp)
              | some r' =>
                rw [ihv _ _ hp]
                rw [hp] at h
                cases r' with
                | error e => exact h
                | ok vn =>
                  obtain ⟨v, n⟩ := vn
                  dsimp only at h ⊢
                  cases hd : rest2.drop n with
                  | nil => rw [hd] at h; exact h
                  | cons t3 rest4 =>
                    rw [hd] at h
                    cases t3 with
                    | comma =>
                      dsimp only at h ⊢
                      cases hq : parseObjectAux f rest4 (acc ++ [(key, v)]) with
                      | none => rw [hq] at h; simp at h
                      | some r2 =>
                        rw [iho _ _ _ hq]
                        rw [hq] at h
                        cases r2 with
                        | error e => exact h
                        | ok wm => exact h
                    | _ => exact h
            | _ => exact h
        | _ => exact h
    · intro ts acc r h
      cases ts with
      | nil => exact h
      | cons t rest =>
        cases t with
        | rightBracket => exact h
        | _ =>
          simp only [parseArrayAux] at h ⊢
          cases hp : parseValAux f (_ :: rest) with
          | none => rw [hp] at h; exact absurd h (by simp)
          | some r' =>
            rw [ihv _ _ hp]
            rw [hp] at h
            cases r' with
            | error e => exact h
            | ok vn =>
              obtain ⟨v, n⟩ := vn
              dsimp only at h ⊢
              cases hd : (_ :: rest).drop n with
              | nil => rw [hd] at h; exact h
              | cons t3 rest4 =>
                rw [hd] at h
                cases t3 with
                | comma =>
                  dsimp only at h ⊢
                  cases hq : parseArrayAux f rest4 (acc ++ [v]) with
                  | none => rw [hq] at h; simp at h
                  | some r2 =>
                    rw [iha _ _ _ hq]
                    rw [hq] at h
                    cases r2 with
                    | error e => exact h
                    | ok wm => exact h
                | _ => exact h

theorem parseValAux_mono_le {f g : Nat} (hfg : f ≤ g) :
    ∀ ts r, parseValAux f ts = some r → parseValAux g ts = some r := by
  induction g with
  | zero => intro ts r h; rw [Nat.le_zero.mp hfg] at h; exact h
  | succ g ih =>
    intro ts r h
    rcases Nat.lt_or_ge f (g + 1) with hlt | hge
    · exact (parseAux_mono g).1 ts r (ih (Nat.lt_succ_iff.mp hlt) ts r h)
    · rw [Nat.le_antisymm hfg hge] at h; exact h

theorem parseObjectAux_mono_le {f g : Nat} (hfg : f ≤ g) :
    ∀ ts acc r, parseObjectAux f ts acc = some r → parseObjectAux g ts acc = some r := by
  induction g with
  | zero => intro ts acc r h; rw [Nat.le_zero.mp hfg] at h; exact h
  | succ g ih =>
    intro ts acc r h
    rcases Nat.lt_or_ge f (g + 1) with hlt | hge
    · exact (parseAux_mono g).2.1 ts acc r (ih (Nat.lt_succ_iff.mp hlt) ts acc r h)
    · rw [Nat.le_antisymm hfg hge] at h; exact h

theorem parseArrayAux_mono_le {f g : Nat} (hfg : f ≤ g) :
    ∀ ts acc r, parseArrayAux f ts acc = some r → parseArrayAux g ts acc = some r := by
  induction g with
  | zero => intro ts acc r h; rw [Nat.le_zero.mp hfg] at h; exact h
  | succ g ih =>
    intro ts acc r h
    rcases Nat.lt_or_ge f (g + 1) with hlt | hge
    · exact (parseAux_mono g).2.2 ts acc r (ih (Nat.lt_succ_iff.mp hlt) ts acc r h)
    · rw [Nat.le_antisymm hfg hge] at h; exact h

/-! Reduction lemmas for the branches whose scrutinee is a catch-all
pattern (they hold by computation once the head token is known). -/

theorem parseValAux_structural (f : Nat) (rest : List JsonToken) (t : JsonToken)
    (ht : t = .rightBrace ∨ t = .rightBracket ∨ t = .colon ∨ t = .comma) :
    parseValAux (f + 1) (t :: rest) = some (.error (.unexpectedToken t)) := by
  rcases ht with h | h | h | h <;> rw [h] <;> rfl

theorem parseObjectAux_noncolon (f : Nat) (key : List Char) (t2 : JsonToken)
    (rest2 : List JsonToken) (acc : List (List Char × JsonValue)) (ht : t2 ≠ .colon) :
    parseObjectAux (f + 1) (.string key :: t2 :: rest2) acc =
      some (.error (.unexpectedToken (.string key))) := by
  cases t2 <;> first | rfl | exact absurd rfl ht

theorem parseObjectAux_badkey (f : Nat) (t : JsonToken) (rest : List JsonToken)
    (acc : List (List Char × JsonValue)) (h1 : t ≠ .rightBrace)
    (h2 : ∀ s, t ≠ .string s) :
    parseObjectAux (f + 1) (t :: rest) acc = some (.error (.unexpectedToken t)) := by
  cases t <;> first | rfl | exact absurd rfl h1 | exact absurd rfl (h2 _)

theorem parseArrayAux_cons_ne (f : Nat) (t : JsonToken) (rest : List JsonToken)
    (acc : List JsonValue) (ht : t ≠ .rightBracket) :
    parseArrayAux (f + 1) (t :: rest) acc =
      (match parseValAux f (t :: rest) with
      | none => none
      | some (.error e) => some (.error e)
      | some (.ok (v, n)) =>
        match (t :: rest).drop n with
        | .comma :: rest4 =>
          match parseArrayAux f rest4 (acc ++ [v]) with
          | none => none
          | some (.error e) => some (.error e)
          | some (.ok (w, m)) => some (.ok (w, n + 1 + m))
        | .rightBracket :: _ => some (.ok (.array (acc ++ [v]), n + 1))
        | _ => some (.error (.unexpectedToken t))) := by
  cases t <;> first | rfl | exact absurd rfl ht

/-- Fuel sufficiency for the parser: `parse` needs at most `2 * ts.length + 1`
units (each recursive call either consumes a token or is the single rewound
re-read of an array element's first token), `parse_array` one more. -/
theorem parseAux_fuel_sufficient : ∀ f,
    (∀ ts, 2 * ts.length + 1 ≤ f → ∃ r, parseValAux f ts = some r) ∧
    (∀ ts acc, 2 * ts.length + 1 ≤ f → ∃ r, parseObjectAux f ts acc = some r) ∧
    (∀ ts acc, 2 * ts.length + 2 ≤ f → ∃ r, parseArrayAux f ts acc = some r) := by
  intro f
  induction f with
  | zero =>
    refine ⟨?_, ?_, ?_⟩ <;> intro ts <;> intros <;> omega
  | succ f ih =>
    obtain ⟨ihv, iho, iha⟩ := ih
    refine ⟨?_, ?_, ?_⟩
    · intro ts hb
      cases ts with
      | nil => exact ⟨.error .unexpectedEnd, rfl⟩
      | cons t rest =>
        cases t with
        | null => exact ⟨_, rfl⟩
        | true => exact ⟨_, rfl⟩
        | false => exact ⟨_, rfl⟩
        | number q => exact ⟨_, rfl⟩
        | string s => exact ⟨_, rfl⟩
        | leftBrace =>
          have hb' : 2 * rest.length + 1 ≤ f := by
            simp only [List.length_cons] at hb; omega
          obtain ⟨r, hr⟩ := iho rest [] hb'
          cases r with
          | error e =>
            exact ⟨.error e, by simp only [parseValAux]; rw [hr]⟩
          | ok vn =>
            obtain ⟨v, n⟩ := vn
            exact ⟨.ok (v, n + 1), by simp only [parseValAux]; rw [hr]⟩
        | leftBracket =>
          have hb' : 2 * rest.length + 2 ≤ f := by
            simp only [List.length_cons] at hb; omega
          obtain ⟨r, hr⟩ := iha rest [] hb'
          cases r with
          | error e =>
            exact ⟨.error e, by simp only [parseValAux]; rw [hr]⟩
          | ok vn =>
            obtain ⟨v, n⟩ := vn
            exact ⟨.ok (v, n + 1), by simp only [parseValAux]; rw [hr]⟩
        | rightBrace => exact ⟨_, parseValAux_structural f rest _ (by simp)⟩
        | rightBracket => exact ⟨_, parseValAux_structural f rest _ (by simp)⟩
        | colon => exact ⟨_, parseValAux_structural f rest _ (by simp)⟩
        | comma => exact ⟨_, parseValAux_structural f rest _ (by simp)⟩
    · intro ts acc hb
      cases ts with
      | nil => exact ⟨.error .unexpectedEnd, rfl⟩
      | cons t rest =>
        cases t with
        | rightBrace => exact ⟨_, rfl⟩
        | string key =>
          cases rest with
          | nil => exact ⟨_, rfl⟩
          | cons t2 rest2 =>
            cases t2 with
            | colon =>
              have hb' : 2 * rest2.length + 1 ≤ f := by
                simp only [List.length_cons] at hb; omega
              obtain ⟨rv, hrv⟩ := ihv rest2 hb'
              cases rv with
              | error e =>
                exact ⟨.error e, by simp only [parseObjectAux]; rw [hrv]⟩
              | ok vn =>
                obtain ⟨v, n⟩ := vn
                cases hd : rest2.drop n with
                | nil =>
                  refine ⟨.error (.unexpectedToken (.string key)), ?_⟩
                  simp only [parseObjectAux]; rw [hrv]; dsimp only; rw [hd]
                | cons t3 rest4 =>
                  have hlen : rest4.length + 1 ≤ rest2.length := by
                    have := congrArg List.length hd
                    simp only [List.length_drop, List.length_cons] at this
                    omega
                  cases t3 with
                  | comma =>
                    have hb2 : 2 * rest4.length + 1 ≤ f := by
                      simp only [List.length_cons] at hb; omega
                    obtain ⟨ro, hro⟩ := iho rest4 (acc ++ [(key, v)]) hb2
                    cases ro with
                    | error e =>
                      refine ⟨.error e, ?_⟩
                      simp only [parseObjectAux]; rw [hrv]; dsimp only
                      rw [hd]; dsimp only; rw [hro]
                    | ok wm =>
                      obtain ⟨w, m⟩ := wm
                      refine ⟨.ok (w, 3 + n + m), ?_⟩
                      simp only [parseObjectAux]; rw [hrv]; dsimp only
                      rw [hd]; dsimp only; rw [hro]
                  | rightBrace =>
                    refine ⟨.ok (.object (acc ++ [(key, v)]), 3 + n), ?_⟩
                    simp only [parseObjectAux]; rw [hrv]; dsimp only; rw [hd]
                  | _ =>
                    refine ⟨.error (.unexpectedToken (.string key)), ?_⟩
                    simp only [parseObjectAux]; rw [hrv]; dsimp only; rw [hd]
            | _ =>
              exact ⟨_, parseObjectAux_noncolon f key _ rest2 acc (by simp)⟩
        | _ =>
          first
          | exact ⟨_, parseObjectAux_badkey f _ rest acc (by simp) (by simp)⟩
    · intro ts acc hb
      cases ts with
      | nil => exact ⟨.error .unexpectedEnd, rfl⟩
      | cons t rest =>
        by_cases ht : t = .rightBracket
        · subst ht; exact ⟨_, rfl⟩
        · have hb' : 2 * (t :: rest).length + 1 ≤ f := by
            simp only [List.length_cons] at hb ⊢; omega
          obtain ⟨rv, hrv⟩ := ihv (t :: rest) hb'
          rw [parseArrayAux_cons_ne f t rest acc ht]
          cases rv with
          | error e => exact ⟨.error e, by rw [hrv]⟩
          | ok vn =>
            obtain ⟨v, n⟩ := vn
            cases hd : (t :: rest).drop n with
            | nil =>
              refine ⟨.error (.unexpectedToken t), ?_⟩
              rw [hrv]; dsimp only; rw [hd]
            | cons t3 rest4 =>
              have hlen : rest4.length ≤ rest.length := by
                have := congrArg List.length hd
                simp only [List.length_drop, List.length_cons] at this
                omega
              cases t3 with
              | comma =>
                have hb2 : 2 * rest4.length + 2 ≤ f := by
                  simp only [List.length_cons] at hb; omega
                obtain ⟨ro, hro⟩ := iha rest4 (acc ++ [v]) hb2
                cases ro with
                | error e =>
                  refine ⟨.error e, ?_⟩
                  rw [hrv]; dsimp only; rw [hd]; dsimp only; rw [hro]
                | ok wm =>
                  obtain ⟨w, m⟩ := wm
                  refine ⟨.ok (w, n + 1 + m), ?_⟩
                  rw [hrv]; dsimp only; rw [hd]; dsimp only; rw [hro]
              | rightBracket =>
                refine ⟨.ok (.array (acc ++ [v]), n + 1), ?_⟩
                rw [hrv]; dsimp only; rw [hd]
              | _ =>
                refine ⟨.error (.unexpectedToken t), ?_⟩
                rw [hrv]; dsimp only; rw [hd]

/-! ### Canonical-fuel transfer lemmas -/

theorem parseValAux_eq_parseVal (ts : List JsonToken) (f : Nat)
    (hf : 2 * ts.length + 1 ≤ f) : parseValAux f ts = some (parseVal ts) := by
  obtain ⟨r, hr⟩ :=
    (parseAux_fuel_sufficient (2 * ts.length + 1)).1 ts (Nat.le_refl _)
  have hv : parseVal ts = r := by rw [parseVal, hr]; rfl
  rw [hv]
  exact parseValAux_mono_le hf ts r hr

theorem parseObjectAux_eq_parseObject (ts : List JsonToken)
    (acc : List (List Char × JsonValue)) (f : Nat) (hf : 2 * ts.length + 1 ≤ f) :
    parseObjectAux f ts acc = some (parseObject ts acc) := by
  obtain ⟨r, hr⟩ :=
    (parseAux_fuel_sufficient (2 * ts.length + 1)).2.1 ts acc (Nat.le_refl _)
  have hv : parseObject ts acc = r := by rw [parseObject, hr]; rfl
  rw [hv]
  exact parseObjectAux_mono_le hf ts acc r hr

theorem parseArrayAux_eq_parseArray (ts : List JsonToken) (acc : List JsonValue)
    (f : Nat) (hf : 2 * ts.length + 2 ≤ f) :
    parseArrayAux f ts acc = some (parseArray ts acc) := by
  obtain ⟨r, hr⟩ :=
    (parseAux_fuel_sufficient (2 * ts.length + 2)).2.2 ts acc (Nat.le_refl _)
  have hv : parseArray ts acc = r := by rw [parseArray, hr]; rfl
  rw [hv]
  exact parseArrayAux_mono_le hf ts acc r hr

/-! ### Fuel-free unfolding equations for the parser entry points.
These are the defining equations of `parse`, `parse_object` and
`parse_array`, with the fuel hidden. -/

theorem parseVal_nil : parseVal [] = .error .unexpectedEnd := rfl

theorem parseVal_null (rest : List JsonToken) :
    parseVal (.null :: rest) = .ok (.null, 1) := rfl

theorem parseVal_true (rest : List JsonToken) :
    parseVal (.true :: rest) = .ok (.bool Bool.true, 1) := rfl

theorem parseVal_false (rest : List JsonToken) :
    parseVal (.false :: rest) = .ok (.bool Bool.false, 1) := rfl

theorem parseVal_number (q : ℚ) (rest : List JsonToken) :
    parseVal (.number q :: rest) = .ok (.number q, 1) := rfl

theorem parseVal_string (s : List Char) (rest : List JsonToken) :
    parseVal (.string s :: rest) = .ok (.string s, 1) := rfl

theorem parseVal_structural (t : JsonToken) (rest : List JsonToken)
    (ht : t = .rightBrace ∨ t = .rightBracket ∨ t = .colon ∨ t = .comma) :
    parseVal (t :: rest) = .error (.unexpectedToken t) := by
  show (parseValAux (2 * (rest.length + 1) + 1) (t :: rest)).getD _ = _
  have he : 2 * (rest.length + 1) + 1 = (2 * rest.length + 2) + 1 := by ring
  rw [he, parseValAux_structural (2 * rest.length + 2) rest t ht]
  rfl

theorem parseVal_leftBrace (rest : List JsonToken) :
    parseVal (.leftBrace :: rest) =
      (match parseObject rest [] with
      | .error e => .error e
      | .ok (v, n) => .ok (v, n + 1)) := by
  show (parseValAux (2 * (rest.length + 1) + 1) (.leftBrace :: rest)).getD _ = _
  have he : 2 * (rest.length + 1) + 1 = (2 * rest.length + 2) + 1 := by ring
  rw [he]
  simp only [parseValAux]
  rw [parseObjectAux_eq_parseObject rest [] _ (by omega)]
  cases parseObject rest [] with
  | error e => rfl
  | ok vn => obtain ⟨v, n⟩ := vn; rfl

theorem parseVal_leftBracket (rest : List JsonToken) :
    parseVal (.leftBracket :: rest) =
      (match parseArray rest [] with
      | .error e => .error e
      | .ok (v, n) => .ok (v, n + 1)) := by
  show (parseValAux (2 * (rest.length + 1) + 1) (.leftBracket :: rest)).getD _ = _
  have he : 2 * (rest.length + 1) + 1 = (2 * rest.length + 2) + 1 := by ring
  rw [he]
  simp only [parseValAux]
  rw [parseArrayAux_eq_parseArray rest [] _ (by omega)]
  cases parseArray rest [] with
  | error e => rfl
  | ok vn => obtain ⟨v, n⟩ := vn; rfl

theorem parseObject_nil (acc : List (List Char × JsonValue)) :
    parseObject [] acc = .error .unexpectedEnd := rfl

theorem parseObject_rightBrace (rest : List JsonToken)
    (acc : List (List Char × JsonValue)) :
    parseObject (.rightBrace :: rest) acc = .ok (.object acc, 1) := rfl

theorem parseObject_string_nil (key : List Char) (acc : List (List Char × JsonValue)) :
    parseObject [.string key] acc = .error (.unexpectedToken (.string key)) := rfl

theorem parseObject_string_noncolon (key : List Char) (t2 : JsonToken)
    (rest2 : List JsonToken) (acc : List (List Char × JsonValue)) (ht : t2 ≠ .colon) :
    parseObject (.string key :: t2 :: rest2) acc =
      .error (.unexpectedToken (.string key)) := by
  show (parseObjectAux (2 * (rest2.length + 2) + 1) _ acc).getD _ = _
  have he : 2 * (rest2.length + 2) + 1 = (2 * rest2.length + 4) + 1 := by ring
  rw [he, parseObjectAux_noncolon (2 * rest2.length + 4) key t2 rest2 acc ht]
  rfl

theorem parseObject_badkey (t : JsonToken) (rest : List JsonToken)
    (acc : List (List Char × JsonValue)) (h1 : t ≠ .rightBrace)
    (h2 : ∀ s, t ≠ .string s) :
    parseObject (t :: rest) acc = .error (.unexpectedToken t) := by
  show (parseObjectAux (2 * (rest.length + 1) + 1) _ acc).getD _ = _
  have he : 2 * (rest.length + 1) + 1 = (2 * rest.length + 2) + 1 := by ring
  rw [he, parseObjectAux_badkey (2 * rest.length + 2) t rest acc h1 h2]
  rfl

theorem parseObject_string_colon (key : List Char) (rest2 : List JsonToken)
    (acc : List (List Char × JsonValue)) :
    parseObject (.string key :: .colon :: rest2) acc =
      (match parseVal rest2 with
      | .error e => .error e
      | .ok (v, n) =>
        match rest2.drop n with
        | .comma :: rest4 =>
          (match parseObject rest4 (acc ++ [(key, v)]) with
          | .error e => .error e
          | .ok (w, m) => .ok (w, 3 + n + m))
        | .rightBrace :: _ => .ok (.object (acc ++ [(key, v)]), 3 + n)
        | _ => .error (.unexpectedToken (.string key))) := by
  show (parseObjectAux (2 * (rest2.length + 2) + 1) _ acc).getD _ = _
  have he : 2 * (rest2.length + 2) + 1 = (2 * rest2.length + 4) + 1 := by ring
  rw [he]
  simp only [parseObjectAux]
  rw [parseValAux_eq_parseVal rest2 _ (by omega)]
  cases parseVal rest2 with
  | error e => rfl
  | ok vn =>
    obtain ⟨v, n⟩ := vn
    dsimp only
    cases hd : rest2.drop n with
    | nil => rfl
    | cons t3 rest4 =>
      have hlen : rest4.length < rest2.length := by
        have := congrArg List.length hd
        simp only [List.length_drop, List.length_cons] at this
        omega
      cases t3 with
      | comma =>
        dsimp only
        rw [parseObjectAux_eq_parseObject rest4 (acc ++ [(key, v)]) _ (by omega)]
        cases parseObject rest4 (acc ++ [(key, v)]) with
        | error e => rfl
        | ok wm => obtain ⟨w, m⟩ := wm; rfl
      | rightBrace => rfl
      | leftBrace => rfl
      | leftBracket => rfl
      | rightBracket => rfl
      | colon => rfl
      | string s => rfl
      | number q => rfl
      | true => rfl
      | false => rfl
      | null => rfl

theorem parseArray_nil (acc : List JsonValue) :
    parseArray [] acc = .error .unexpectedEnd := rfl

theorem parseArray_rightBracket (rest : List JsonToken) (acc : List JsonValue) :
    parseArray (.rightBracket :: rest) acc = .ok (.array acc, 1) := rfl

theorem parseArray_cons_ne (t : JsonToken) (rest : List JsonToken)
    (acc : List JsonValue) (ht : t ≠ .rightBracket) :
    parseArray (t :: rest) acc =
      (match parseVal (t :: rest) with
      | .error e => .error e
      | .ok (v, n) =>
        match (t :: rest).drop n with
        | .comma :: rest4 =>
          (match parseArray rest4 (acc ++ [v]) with
          | .error e => .error e
          | .ok (w, m) => .ok (w, n + 1 + m))
        | .rightBracket :: _ => .ok (.array (acc ++ [v]), n + 1)
        | _ => .error (.unexpectedToken t)) := by
  show (parseArrayAux (2 * (rest.length + 1) + 2) _ acc).getD _ = _
  have he : 2 * (rest.length + 1) + 2 = (2 * rest.length + 3) + 1 := by ring
  rw [he, parseArrayAux_cons_ne (2 * rest.length + 3) t rest acc ht]
  rw [parseValAux_eq_parseVal (t :: rest) _ (by simp only [List.length_cons]; omega)]
  cases parseVal (t :: rest) with
  | error e => rfl
  | ok vn =>
    obtain ⟨v, n⟩ := vn
    dsimp only
    cases hd : (t :: rest).drop n with
    | nil => rfl
    | cons t3 rest4 =>
      have hlen : rest4.length ≤ rest.length := by
        have := congrArg List.length hd
        simp only [List.length_drop, List.length_cons] at this
        omega
      cases t3 with
      | comma =>
        dsimp only
        rw [parseArrayAux_eq_parseArray rest4 (acc ++ [v]) _ (by omega)]
        cases parseArray rest4 (acc ++ [v]) with
        | error e => rfl
        | ok wm => obtain ⟨w, m⟩ := wm; rfl
      | rightBracket => rfl
      | leftBrace => rfl
      | leftBracket => rfl
      | rightBrace => rfl
      | colon => rfl
      | string s => rfl
      | number q => rfl
      | true => rfl
      | false => rfl
      | null => rfl

/-! ### Cursor progress: a successful parse consumes between 1 and all of
the tokens.  (Proved by strong induction on the length of the suffix; the
array case needs the value case at the *same* length because of the
one-step rewind, so the three parts are proved in that order.) -/

theorem parse_consumes : ∀ L : Nat,
    (∀ ts v n, List.length ts = L → parseVal ts = .ok (v, n) →
      1 ≤ n ∧ n ≤ ts.length) ∧
    (∀ ts acc v n, List.length ts = L → parseObject ts acc = .ok (v, n) →
      1 ≤ n ∧ n ≤ ts.length) ∧
    (∀ ts acc v n, List.length ts = L → parseArray ts acc = .ok (v, n) →
      1 ≤ n ∧ n ≤ ts.length) := by
  intro L
  induction L using Nat.strong_induction_on with
  | _ L ih =>
    have hval : ∀ ts v n, List.length ts = L → parseVal ts = .ok (v, n) →
        1 ≤ n ∧ n ≤ ts.length := by
      intro ts v n hL h
      cases ts with
      | nil => rw [parseVal_nil] at h; exact absurd h (by simp)
      | cons t rest =>
        cases t with
        | null => rw [parseVal_null] at h; simp only [Except.ok.injEq, Prod.mk.injEq] at h
                  simp only [List.length_cons]; omega
        | true => rw [parseVal_true] at h; simp only [Except.ok.injEq, Prod.mk.injEq] at h
                  simp only [List.length_cons]; omega
        | false => rw [parseVal_false] at h; simp only [Except.ok.injEq, Prod.mk.injEq] at h
                   simp only [List.length_cons]; omega
        | number q => rw [parseVal_number] at h; simp only [Except.ok.injEq, Prod.mk.injEq] at h
                      simp only [List.length_cons]; omega
        | string s => rw [parseVal_string] at h; simp only [Except.ok.injEq, Prod.mk.injEq] at h
                      simp only [List.length_cons]; omega
        | rightBrace => rw [parseVal_structural _ _ (by simp)] at h; exact absurd h (by simp)
        | rightBracket => rw [parseVal_structural _ _ (by simp)] at h; exact absurd h (by simp)
        | colon => rw [parseVal_structural _ _ (by simp)] at h; exact absurd h (by simp)
        | comma => rw [parseVal_structural _ _ (by simp)] at h; exact absurd h (by simp)
        | leftBrace =>
          rw [parseVal_leftBrace] at h
          cases ho : parseObject rest [] with
          | error e => rw [ho] at h; exact absurd h (by simp)
          | ok vn =>
            obtain ⟨v0, n0⟩ := vn
            rw [ho] at h
            simp only [Except.ok.injEq, Prod.mk.injEq] at h
            have hrest : rest.length < L := by
              simp only [List.length_cons] at hL; omega
            have := (ih rest.length hrest).2.1 rest [] v0 n0 rfl ho
            simp only [List.length_cons]; omega
        | leftBracket =>
          rw [parseVal_leftBracket] at h
          cases ho : parseArray rest [] with
          | error e => rw [ho] at h; exact absurd h (by simp)
          | ok vn =>
            obtain ⟨v0, n0⟩ := vn
            rw [ho] at h
            simp only [Except.ok.injEq, Prod.mk.injEq] at h
            have hrest : rest.length < L := by
              simp only [List.length_cons] at hL; omega
            have := (ih rest.length hrest).2.2 rest [] v0 n0 rfl ho
            simp only [List.length_cons]; omega
    refine ⟨hval, ?_, ?_⟩
    · intro ts acc v n hL h
      cases ts with
      | nil => rw [parseObject_nil] at h; exact absurd h (by simp)
      | cons t rest =>
        cases t with
        | rightBrace =>
          rw [parseObject_rightBrace] at h
          simp only [Except.ok.injEq, Prod.mk.injEq] at h
          simp only [List.length_cons]; omega
        | string key =>
          cases rest with
          | nil => rw [parseObject_string_nil] at h; exact absurd h (by simp)
          | cons t2 rest2 =>
            by_cases ht2 : t2 = .colon
            · subst ht2
              rw [parseObject_string_colon] at h
              cases hv : parseVal rest2 with
              | error e => rw [hv] at h; exact absurd h (by simp)
              | ok vn =>
                obtain ⟨v0, n0⟩ := vn
                rw [hv] at h
                dsimp only at h
                have hrest2 : rest2.length < L := by
                  simp only [List.length_cons] at hL; omega
                have hn0 := (ih rest2.length hrest2).1 rest2 v0 n0 rfl hv
                cases hd : rest2.drop n0 with
                | nil => rw [hd] at h; exact absurd h (by simp)
                | cons t3 rest4 =>
                  rw [hd] at h
                  have hlen4 : rest4.length + 1 + n0 = rest2.length := by
                    have := congrArg List.length hd
                    simp only [List.length_drop, List.length_cons] at this
                    omega
                  cases t3 with
                  | comma =>
                    dsimp only at h
                    cases hoo : parseObject rest4 (acc ++ [(key, v0)]) with
                    | error e => rw [hoo] at h; exact absurd h (by simp)
                    | ok wm =>
                      obtain ⟨w, m⟩ := wm
                      rw [hoo] at h
                      simp only [Except.ok.injEq, Prod.mk.injEq] at h
                      have hrest4 : rest4.length < L := by omega
                      have hm := (ih rest4.length hrest4).2.1 rest4 _ w m rfl hoo
                      simp only [List.length_cons]; omega
                  | rightBrace =>
                    dsimp only at h
                    simp only [Except.ok.injEq, Prod.mk.injEq] at h
                    simp only [List.length_cons]; omega
                  | leftBrace => exact absurd h (by simp)
                  | leftBracket => exact absurd h (by simp)
                  | rightBracket => exact absurd h (by simp)
                  | colon => exact absurd h (by simp)
                  | string s => exact absurd h (by simp)
                  | number q => exact absurd h (by simp)
                  | true => exact absurd h (by simp)
                  | false => exact absurd h (by simp)
                  | null => exact absurd h (by simp)
            · rw [parseObject_string_noncolon _ _ _ _ ht2] at h
              exact absurd h (by simp)
        | leftBrace =>
          rw [parseObject_badkey _ _ _ (by simp) (by simp)] at h; exact absurd h (by simp)
        | leftBracket =>
          rw [parseObject_badkey _ _ _ (by simp) (by simp)] at h; exact absurd h (by simp)
        | rightBracket =>
          rw [parseObject_badkey _ _ _ (by simp) (by simp)] at h; exact absurd h (by simp)
        | colon =>
          rw [parseObject_badkey _ _ _ (by simp) (by simp)] at h; exact absurd h (by simp)
        | comma =>
          rw [parseObject_badkey _ _ _ (by simp) (by simp)] at h; exact absurd h (by simp)
        | number q =>
          rw [parseObject_badkey _ _ _ (by simp) (by simp)] at h; exact absurd h (by simp)
        | true =>
          rw [parseObject_badkey _ _ _ (by simp) (by simp)] at h; exact absurd h (by simp)
        | false =>
          rw [parseObject_badkey _ _ _ (by simp) (by simp)] at h; exact absurd h (by simp)
        | null =>
          rw [parseObject_badkey _ _ _ (by simp) (by simp)] at h; exact absurd h (by simp)
    · intro ts acc v n hL h
      cases ts with
      | nil => rw [parseArray_nil] at h; exact absurd h (by simp)
      | cons t rest =>
        by_cases ht : t = .rightBracket
        · subst ht
          rw [parseArray_rightBracket] at h
          simp only [Except.ok.injEq, Prod.mk.injEq] at h
          simp only [List.length_cons]; omega
        · rw [parseArray_cons_ne _ _ _ ht] at h
          cases hv : parseVal (t :: rest) with
          | error e => rw [hv] at h; exact absurd h (by simp)
          | ok vn =>
            obtain ⟨v0, n0⟩ := vn
            rw [hv] at h
            dsimp only at h
            have hn0 := hval (t :: rest) v0 n0 hL hv
            cases hd : (t :: rest).drop n0 with
            | nil => rw [hd] at h; exact absurd h (by simp)
            | cons t3 rest4 =>
              rw [hd] at h
              have hlen4 : rest4.length + 1 + n0 = rest.length + 1 := by
                have := congrArg List.length hd
                simp only [List.length_drop, List.length_cons] at this
                simp only [List.length_cons] at hn0
                omega
              cases t3 with
              | comma =>
                dsimp only at h
                cases haa : parseArray rest4 (acc ++ [v0]) with
                | error e => rw [haa] at h; exact absurd h (by simp)
                | ok wm =>
                  obtain ⟨w, m⟩ := wm
                  rw [haa] at h
                  simp only [Except.ok.injEq, Prod.mk.injEq] at h
                  have hrest4 : rest4.length < L := by
                    simp only [List.length_cons] at hL hn0; omega
                  have hm := (ih rest4.length hrest4).2.2 rest4 _ w m rfl haa
                  simp only [List.length_cons]; omega
              | rightBracket =>
                dsimp only at h
                simp only [Except.ok.injEq, Prod.mk.injEq] at h
                simp only [List.length_cons]; omega
              | leftBrace => exact absurd h (by simp)
              | leftBracket => exact absurd h (by simp)
              | rightBrace => exact absurd h (by simp)
              | colon => exact absurd h (by simp)
              | string s => exact absurd h (by simp)
              | number q => exact absurd h (by simp)
              | true => exact absurd h (by simp)
              | false => exact absurd h (by simp)
              | null => exact absurd h (by simp)

/-! ### Prefix locality: a successful parse never looks past the tokens it
consumes, so appending tokens after them changes neither success nor the
result.  Same induction structure as `parse_consumes`. -/

theorem parse_append : ∀ L : Nat,
    (∀ ts extra v n, List.length ts = L → parseVal ts = .ok (v, n) →
      parseVal (ts ++ extra) = .ok (v, n)) ∧
    (∀ ts acc extra v n, List.length ts = L → parseObject ts acc = .ok (v, n) →
      parseObject (ts ++ extra) acc = .ok (v, n)) ∧
    (∀ ts acc extra v n, List.length ts = L → parseArray ts acc = .ok (v, n) →
      parseArray (ts ++ extra) acc = .ok (v, n)) := by
  intro L
  induction L using Nat.strong_induction_on with
  | _ L ih =>
    have hval : ∀ ts extra v n, List.length ts = L → parseVal ts = .ok (v, n) →
        parseVal (ts ++ extra) = .ok (v, n) := by
      intro ts extra v n hL h
      cases ts with
      | nil => rw [parseVal_nil] at h; exact absurd h (by simp)
      | cons t rest =>
        cases t with
        | null => rw [parseVal_null] at h; rw [List.cons_append, parseVal_null]; exact h
        | true => rw [parseVal_true] at h; rw [List.cons_append, parseVal_true]; exact h
        | false => rw [parseVal_false] at h; rw [List.cons_append, parseVal_false]; exact h
        | number q => rw [parseVal_number] at h; rw [List.cons_append, parseVal_number]; exact h
        | string s => rw [parseVal_string] at h; rw [List.cons_append, parseVal_string]; exact h
        | rightBrace => rw [parseVal_structural _ _ (by simp)] at h; exact absurd h (by simp)
        | rightBracket => rw [parseVal_structural _ _ (by simp)] at h; exact absurd h (by simp)
        | colon => rw [parseVal_structural _ _ (by simp)] at h; exact absurd h (by simp)
        | comma => rw [parseVal_structural _ _ (by simp)] at h; exact absurd h (by simp)
        | leftBrace =>
          rw [parseVal_leftBrace] at h
          cases ho : parseObject rest [] with
          | error e => rw [ho] at h; exact absurd h (by simp)
          | ok vn =>
            obtain ⟨v0, n0⟩ := vn
            rw [ho] at h
            dsimp only at h
            have hrest : rest.length < L := by
              simp only [List.length_cons] at hL; omega
            have hoE := (ih rest.length hrest).2.1 rest [] extra v0 n0 rfl ho
            rw [List.cons_append, parseVal_leftBrace, hoE]
            exact h
        | leftBracket =>
          rw [parseVal_leftBracket] at h
          cases ho : parseArray rest [] with
          | error e => rw [ho] at h; exact absurd h (by simp)
          | ok vn =>
            obtain ⟨v0, n0⟩ := vn
            rw [ho] at h
            dsimp only at h
            have hrest : rest.length < L := by
              simp only [List.length_cons] at hL; omega
            have hoE := (ih rest.length hrest).2.2 rest [] extra v0 n0 rfl ho
            rw [List.cons_append, parseVal_leftBracket, hoE]
            exact h
    refine ⟨hval, ?_, ?_⟩
    · intro ts acc extra v n hL h
      cases ts with
      | nil => rw [parseObject_nil] at h; exact absurd h (by simp)
      | cons t rest =>
        cases t with
        | rightBrace =>
          rw [parseObject_rightBrace] at h
          rw [List.cons_append, parseObject_rightBrace]
          exact h
        | string key =>
          cases rest with
          | nil => rw [parseObject_string_nil] at h; exact absurd h (by simp)
          | cons t2 rest2 =>
            by_cases ht2 : t2 = .colon
            · subst ht2
              rw [parseObject_string_colon] at h
              cases hv : parseVal rest2 with
              | error e => rw [hv] at h; exact absurd h (by simp)
              | ok vn =>
                obtain ⟨v0, n0⟩ := vn
                rw [hv] at h
                dsimp only at h
                have hrest2 : rest2.length < L := by
                  simp only [List.length_cons] at hL; omega
                have hn0 := (parse_consumes rest2.length).1 rest2 v0 n0 rfl hv
                have hvE := (ih rest2.length hrest2).1 rest2 extra v0 n0 rfl hv
                cases hd : rest2.drop n0 with
                | nil => rw [hd] at h; exact absurd h (by simp)
                | cons t3 rest4 =>
                  rw [hd] at h
                  have hdE : (rest2 ++ extra).drop n0 = t3 :: (rest4 ++ extra) := by
                    rw [List.drop_append_of_le_length hn0.2, hd, List.cons_append]
                  have hlen4 : rest4.length + 1 + n0 = rest2.length := by
                    have := congrArg List.length hd
                    simp only [List.length_drop, List.length_cons] at this
                    omega
                  cases t3 with
                  | comma =>
                    dsimp only at h
                    cases hoo : parseObject rest4 (acc ++ [(key, v0)]) with
                    | error e => rw [hoo] at h; exact absurd h (by simp)
                    | ok wm =>
                      obtain ⟨w, m⟩ := wm
                      rw [hoo] at h
                      have hrest4 : rest4.length < L := by omega
                      have hooE := (ih rest4.length hrest4).2.1 rest4 _ extra w m rfl hoo
                      rw [List.cons_append, List.cons_append, parseObject_string_colon,
                        hvE]
                      dsimp only
                      rw [hdE]
                      dsimp only
                      rw [hooE]
                      exact h
                  | rightBrace =>
                    dsimp only at h
                    rw [List.cons_append, List.cons_append, parseObject_string_colon, hvE]
                    dsimp only
                    rw [hdE]
                    exact h
                  | leftBrace => exact absurd h (by simp)
                  | leftBracket => exact absurd h (by simp)
                  | rightBracket => exact absurd h (by simp)
                  | colon => exact absurd h (by simp)
                  | string s => exact absurd h (by simp)
                  | number q => exact absurd h (by simp)
                  | true => exact absurd h (by simp)
                  | false => exact absurd h (by simp)
                  | null => exact absurd h (by simp)
            · rw [parseObject_string_noncolon _ _ _ _ ht2] at h
              exact absurd h (by simp)
        | leftBrace =>
          rw [parseObject_badkey _ _ _ (by simp) (by simp)] at h; exact absurd h (by simp)
        | leftBracket =>
          rw [parseObject_badkey _ _ _ (by simp) (by simp)] at h; exact absurd h (by simp)
        | rightBracket =>
          rw [parseObject_badkey _ _ _ (by simp) (by simp)] at h; exact absurd h (by simp)
        | colon =>
          rw [parseObject_badkey _ _ _ (by simp) (by simp)] at h; exact absurd h (by simp)
        | comma =>
          rw [parseObject_badkey _ _ _ (by simp) (by simp)] at h; exact absurd h (by simp)
        | number q =>
          rw [parseObject_badkey _ _ _ (by simp) (by simp)] at h; exact absurd h (by simp)
        | true =>
          rw [parseObject_badkey _ _ _ (by simp) (by simp)] at h; exact absurd h (by simp)
        | false =>
          rw [parseObject_badkey _ _ _ (by simp) (by simp)] at h; exact absurd h (by simp)
        | null =>
          rw [parseObject_badkey _ _ _ (by simp) (by simp)] at h; exact absurd h (by simp)
    · intro ts acc extra v n hL h
      cases ts with
      | nil => rw [parseArray_nil] at h; exact absurd h (by simp)
      | cons t rest =>
        by_cases ht : t = .rightBracket
        · subst ht
          rw [parseArray_rightBracket] at h
          rw [List.cons_append, parseArray_rightBracket]
          exact h
        · rw [parseArray_cons_ne _ _ _ ht] at h
          cases hv : parseVal (t :: rest) with
          | error e => rw [hv] at h; exact absurd h (by simp)
          | ok vn =>
            obtain ⟨v0, n0⟩ := vn
            rw [hv] at h
            dsimp only at h
            have hn0 := (parse_consumes (t :: rest).length).1 (t :: rest) v0 n0 rfl hv
            have hvE := hval (t :: rest) extra v0 n0 hL hv
            rw [List.cons_append] at hvE
            cases hd : (t :: rest).drop n0 with
            | nil => rw [hd] at h; exact absurd h (by simp)
            | cons t3 rest4 =>
              rw [hd] at h
              have hdE : (t :: (rest ++ extra)).drop n0 = t3 :: (rest4 ++ extra) := by
                rw [← List.cons_append, List.drop_append_of_le_length hn0.2, hd,
                  List.cons_append]
              have hlen4 : rest4.length + 1 + n0 = rest.length + 1 := by
                have := congrArg List.length hd
                simp only [List.length_drop, List.length_cons] at this
                simp only [List.length_cons] at hn0
                omega
              cases t3 with
              | comma =>
                dsimp only at h
                cases haa : parseArray rest4 (acc ++ [v0]) with
                | error e => rw [haa] at h; exact absurd h (by simp)
                | ok wm =>
                  obtain ⟨w, m⟩ := wm
                  rw [haa] at h
                  have hrest4 : rest4.length < L := by
                    simp only [List.length_cons] at hL hn0; omega
                  have haaE := (ih rest4.length hrest4).2.2 rest4 _ extra w m rfl haa
                  rw [List.cons_append, parseArray_cons_ne _ _ _ ht, hvE]
                  dsimp only
                  rw [hdE]
                  dsimp only
                  rw [haaE]
                  exact h
              | rightBracket =>
                dsimp only at h
                rw [List.cons_append, parseArray_cons_ne _ _ _ ht, hvE]
                dsimp only
                rw [hdE]
                exact h
              | leftBrace => exact absurd h (by simp)
              | leftBracket => exact absurd h (by simp)
              | rightBrace => exact absurd h (by simp)
              | colon => exact absurd h (by simp)
              | string s => exact absurd h (by simp)
              | number q => exact absurd h (by simp)
              | true => exact absurd h (by simp)
              | false => exact absurd h (by simp)
              | null => exact absurd h (by simp)

/-! ### Behaviour of the scanning helpers on decomposed inputs -/

/-- An unterminated string: if no closing quote remains, `parse_string`
consumes everything and reports `'"'` at the cursor value after the failed
read, i.e. one past the last character. -/
theorem parseString_unterminated : ∀ s k acc, (∀ c ∈ s, c ≠ '"') →
    parseString s k acc = .error (.unexpectedCharacter '"' (k + s.length + 1)) := by
  intro s
  induction s with
  | nil => intro k acc _; rfl
  | cons c rest ih =>
    intro k acc hq
    rw [parseString, if_neg (hq c (List.mem_cons_self c rest)),
      ih (k + 1) (acc ++ [c]) (fun x hx => hq x (List.mem_cons_of_mem c hx))]
    simp only [List.length_cons]
    ring_nf

/-- A terminated string literal: `parse_string` consumes the body and the
closing quote and returns the body verbatim. -/
theorem parseString_closed : ∀ body rest k acc, (∀ c ∈ body, c ≠ '"') →
    parseString (body ++ '"' :: rest) k acc =
      .ok (.string (acc ++ body), rest, k + body.length + 1) := by
  intro body
  induction body with
  | nil => intro rest k acc _; simp [parseString]
  | cons c bodyRest ih =>
    intro rest k acc hq
    rw [List.cons_append, parseString, if_neg (hq c (List.mem_cons_self c bodyRest)),
      ih rest (k + 1) (acc ++ [c]) (fun x hx => hq x (List.mem_cons_of_mem c hx))]
    simp only [List.length_cons, List.append_assoc, List.singleton_append]
    ring_nf

/-- The characters `parse_int` keeps consuming (ASCII digits and `'.'`)
occupy one UTF-8 byte each. -/
theorem isRunChar_ascii (c : Char) (h : isRunChar c = true) : c.utf8Size = 1 := by
  have hv : c.val ≤ (0x7F : UInt32) := by
    rw [isRunChar, Bool.or_eq_true] at h
    rcases h with h | h
    · rw [Char.isDigit, Bool.and_eq_true] at h
      have h2 : c.val ≤ (57 : UInt32) := by simpa using h.2
      exact UInt32.le_trans h2 (by decide)
    · have h2 : c = '.' := by simpa using h
      subst h2
      decide
  rw [Char.utf8Size]
  exact if_pos hv

/-- When the first `n` characters are single-byte, byte index `n` is a
character boundary and falls after exactly `n` characters. -/
theorem boundaryIdx_ascii : ∀ (s : List Char) (n : Nat),
    (∀ c ∈ s.take n, c.utf8Size = 1) → n ≤ s.length →
    boundaryIdx s n = some n := by
  intro s
  induction s with
  | nil =>
    intro n _ hn
    cases n with
    | zero => rfl
    | succ m => exact absurd hn (by simp)
  | cons c rest ih =>
    intro n hall hn
    cases n with
    | zero => rfl
    | succ m =>
      have hc : c.utf8Size = 1 := hall c (by simp [List.take_succ_cons])
      rw [boundaryIdx, hc, if_pos (by omega)]
      have htl : ∀ x ∈ rest.take m, x.utf8Size = 1 := by
        intro x hx
        exact hall x (by simp [List.take_succ_cons, hx])
      rw [show m + 1 - 1 = m from rfl,
        ih m htl (by simpa using Nat.succ_le_succ_iff.mp hn)]
      rfl

/-- A byte slice whose end lies inside the single-byte region of the text
extracts the corresponding character range. -/
theorem byteSlice_ascii (s : List Char) (a b : Nat)
    (hall : ∀ c ∈ s.take b, c.utf8Size = 1) (hab : a ≤ b) (hb : b ≤ s.length) :
    byteSlice s a b = some ((s.take b).drop a) := by
  have halla : ∀ c ∈ s.take a, c.utf8Size = 1 := by
    intro c hc
    apply hall
    have htt : s.take a = (s.take b).take a := by
      rw [List.take_take, Nat.min_eq_left hab]
    exact List.take_subset a (s.take b) (htt ▸ hc)
  rw [byteSlice, boundaryIdx_ascii s a halla (le_trans hab hb),
    boundaryIdx_ascii s b hall hb]
  dsimp only
  rw [if_pos hab]

/-- The slice `parse_int` takes when `pre` and `acc` are single-byte text:
byte offsets and character offsets agree, and the slice is exactly `acc`. -/
theorem byteSlice_exact (pre acc tail : List Char)
    (hpre : ∀ c ∈ pre, c.utf8Size = 1) (hacc : ∀ c ∈ acc, c.utf8Size = 1) :
    byteSlice (pre ++ acc ++ tail) pre.length (pre.length + acc.length) =
      some acc := by
  have hassoc : pre ++ acc ++ tail = (pre ++ acc) ++ tail := by
    rw [List.append_assoc]
  rw [hassoc]
  have hlen : (pre ++ acc).length = pre.length + acc.length :=
    List.length_append pre acc
  have htake : ((pre ++ acc) ++ tail).take (pre.length + acc.length) = pre ++ acc := by
    rw [← hlen, List.take_left]
  have hb : pre.length + acc.length ≤ ((pre ++ acc) ++ tail).length := by
    simp only [List.length_append]
    omega
  rw [byteSlice_ascii _ _ _
    (by rw [htake]
        intro c hc
        rcases List.mem_append.mp hc with h | h
        exacts [hpre c h, hacc c h])
    (Nat.le_add_right _ _) hb, htake, List.drop_left]

/-- `parse_int` on a maximal numeric run followed by a non-run character,
when the consumed prefix is single-byte text (so the byte slice is the run
itself): the run is collected and handed to the float parser; on failure
the character after the run is reported at the 1-based position of the
*last run character* (the cursor after the one-step rewind). -/
theorem parseInt_run : ∀ run rest c pre acc, (∀ x ∈ run, isRunChar x) →
    isRunChar c = false →
    (∀ x ∈ pre, x.utf8Size = 1) → (∀ x ∈ acc, isRunChar x) →
    parseInt (run ++ c :: rest) pre acc =
      (match parseF64 (acc ++ run) with
      | some q =>
        .ret (.ok (.number q, c :: rest, pre.length + acc.length + run.length))
      | none =>
        .ret (.error
          (.unexpectedCharacter c (pre.length + acc.length + run.length)))) := by
  intro run
  induction run with
  | nil =>
    intro rest c pre acc _ hc hpre hacc
    rw [List.nil_append, parseInt, if_neg (by simp [hc]),
      byteSlice_exact pre acc (c :: rest) hpre
        (fun x hx => isRunChar_ascii x (hacc x hx)),
      List.append_nil]
    dsimp only
    cases parseF64 acc <;> simp
  | cons r runRest ih =>
    intro rest c pre acc hrun hc hpre hacc
    have haccr : ∀ x ∈ acc ++ [r], isRunChar x = true := by
      intro x hx
      rcases List.mem_append.mp hx with h | h
      · exact hacc x h
      · rw [List.mem_singleton.mp h]
        exact hrun r (List.mem_cons_self r runRest)
    rw [List.cons_append, parseInt, if_pos (hrun r (List.mem_cons_self r runRest)),
      ih rest c pre (acc ++ [r]) (fun x hx => hrun x (List.mem_cons_of_mem r hx))
        hc hpre haccr]
    simp only [List.append_assoc, List.singleton_append, List.length_append,
      List.length_singleton, List.length_cons, List.length_nil, Nat.zero_add]
    have hN : pre.length + (acc.length + 1) + runRest.length
        = pre.length + acc.length + (runRest.length + 1) := by ring
    rw [hN]

/-- `parse_int` when the numeric run reaches the end of the input: there is
no success path (and no slice is taken, so no panic either); the error
reports `'\0'` one past the input. -/
theorem parseInt_eof : ∀ run pre acc, (∀ x ∈ run, isRunChar x) →
    parseInt run pre acc =
      .ret (.error (.unexpectedCharacter '\x00'
        (pre.length + acc.length + run.length + 1))) := by
  intro run
  induction run with
  | nil =>
    intro pre acc _
    rw [parseInt]
    simp
  | cons r runRest ih =>
    intro pre acc hrun
    rw [parseInt, if_pos (hrun r (List.mem_cons_self r runRest)),
      ih pre (acc ++ [r]) (fun x hx => hrun x (List.mem_cons_of_mem r hx))]
    simp only [List.length_append, List.length_singleton, List.length_cons,
      List.length_nil, Nat.zero_add]
    have hN : pre.length + (acc.length + 1) + runRest.length + 1
        = pre.length + acc.length + (runRest.length + 1) + 1 := by ring
    rw [hN]

/-- If a digit-and-dot string contains at least one dot, `dropWhile` up to
the first dot exposes it, and the remaining dots sit in the tail. -/
theorem dropWhile_dot : ∀ l : List Char, 1 ≤ l.count '.' →
    ∃ fp, l.dropWhile (fun c => c ≠ '.') = '.' :: fp ∧
      l.count '.' = fp.count '.' + 1 := by
  intro l
  induction l with
  | nil => intro h; simp [List.count_nil] at h
  | cons c rest ih =>
    intro h
    by_cases hc : c = '.'
    · subst hc
      refine ⟨rest, ?_, ?_⟩
      · rw [List.dropWhile_cons]
        simp
      · rw [List.count_cons]
        simp
    · have hcount : rest.count '.' = (c :: rest).count '.' := by
        rw [List.count_cons]
        simp [hc]
      obtain ⟨fp, hfp, hc2⟩ := ih (by omega)
      refine ⟨fp, ?_, ?_⟩
      · rw [List.dropWhile_cons]
        simp only [hc, decide_not]
        simpa [hc] using hfp
      · omega

/-- The mantissa parser rejects a string containing two or more dots: the
second dot lands after the first and fails the digit check. -/
theorem parseF64Core_two_dots (l : List Char) (h : 2 ≤ l.count '.') :
    parseF64Core l = none := by
  obtain ⟨fp, hfp, hcount⟩ := dropWhile_dot l (by omega)
  have hdotfp : '.' ∈ fp := by
    have : 1 ≤ fp.count '.' := by omega
    exact List.count_pos_iff.mp (by omega)
  have hfpnotall : ¬(fp.all Char.isDigit = true) := by
    intro hall
    have := List.all_eq_true.mp hall '.' hdotfp
    simp [Char.isDigit] at this
  rw [parseF64Core]
  simp only [hfp]
  rw [if_neg (by intro hcontra; exact hfpnotall hcontra.2.1)]

/-- Rust's float parser rejects a string containing two or more dots, with
or without a leading sign (a sign character is not a dot, so the mantissa
still holds both dots). -/
theorem parseF64_two_dots (l : List Char) (h : 2 ≤ l.count '.') :
    parseF64 l = none := by
  cases l with
  | nil => simp [List.count_nil] at h
  | cons c rest =>
    rw [parseF64]
    by_cases hm : c = '-'
    · rw [if_pos hm]
      have h2 : 2 ≤ rest.count '.' := by
        rw [List.count_cons] at h
        subst hm
        simpa using h
      rw [parseF64Core_two_dots rest h2]
      rfl
    · rw [if_neg hm]
      by_cases hp : c = '+'
      · rw [if_pos hp]
        have h2 : 2 ≤ rest.count '.' := by
          rw [List.count_cons] at h
          subst hp
          simpa using h
        exact parseF64Core_two_dots rest h2
      · rw [if_neg hp]
        exact parseF64Core_two_dots (c :: rest) h

/-- `parse_keyword` consumes matching characters one for one. -/
theorem parseKeyword_agree : ∀ com rem k kw tok,
    parseKeyword (com ++ rem) k (com ++ kw) tok =
      parseKeyword rem (k + com.length) kw tok := by
  intro com
  induction com with
  | nil => intro rem k kw tok; simp
  | cons c comRest ih =>
    intro rem k kw tok
    rw [List.cons_append, List.cons_append, parseKeyword, if_pos rfl, ih]
    have he : k + 1 + comRest.length = k + (c :: comRest).length := by
      simp only [List.length_cons]; ring
    rw [he]

/-- A keyword that matches in full: the cursor ends just past it. -/
theorem parseKeyword_success (kw rem : List Char) (k : Nat) (tok : JsonToken) :
    parseKeyword (kw ++ rem) k kw tok = .ok (tok, rem, k + kw.length) := by
  have h := parseKeyword_agree kw rem k [] tok
  rw [List.append_nil] at h
  rw [h]
  cases rem <;> rfl

/-- A mismatch at any keyword position reports the mismatched input
character at its 1-based position. -/
theorem parseKeyword_mismatch (com : List Char) (c : Char) (rest : List Char)
    (e : Char) (kwRest : List Char) (tok : JsonToken) (k : Nat) (hne : c ≠ e) :
    parseKeyword (com ++ c :: rest) k (com ++ e :: kwRest) tok =
      .error (.unexpectedCharacter c (k + com.length + 1)) := by
  rw [parseKeyword_agree, parseKeyword, if_neg hne]

/-- Running out of input mid-keyword reports `'\0'` one past the input. -/
theorem parseKeyword_eof (com : List Char) (e : Char) (kwRest : List Char)
    (tok : JsonToken) (k : Nat) :
    parseKeyword com k (com ++ e :: kwRest) tok =
      .error (.unexpectedCharacter '\x00' (k + com.length + 1)) := by
  have h := parseKeyword_agree com [] k (e :: kwRest) tok
  rw [List.append_nil] at h
  rw [h]
  rfl

/-! ### Whitespace-insensitivity and the silent-skip policy -/

/-- The whitespace characters the spec inserts between tokens. -/
def isWsChar (c : Char) : Bool := c = ' ' || c = '\t' || c = '\n'

/-- The characters on which the tokenizer's dispatch `match` does anything;
every other character falls into the catch-all arm and is silently skipped
(no token, no error). -/
def startsToken (c : Char) : Bool :=
  c = '{' || c = '}' || c = ',' || c = ':' || c = '[' || c = ']' ||
  c.isDigit || c = '"' || c = 't' || c = 'f' || c = 'n'

/-- A helper that consumed `consumed` characters leaves the cursor prefix
`pre ++ consumed`. -/
theorem advance_append (pre consumed after : List Char) :
    advance pre (consumed ++ after) after = pre ++ consumed := by
  rw [advance]
  have hl : (consumed ++ after).length - after.length = consumed.length := by
    simp only [List.length_append]
    omega
  rw [hl, List.take_left]

/-- The silent-skip equation: a character that starts no token is consumed
with no effect other than advancing the cursor — it is not emitted as a
token and is not an error. -/
theorem tokenizeAux_skip (f : Nat) (c : Char) (s pre : List Char)
    (h : startsToken c = false) :
    tokenizeAux (f + 1) (c :: s) pre = tokenizeAux f s (pre ++ [c]) := by
  simp only [startsToken, Bool.or_eq_false_iff, decide_eq_false_iff_not] at h
  obtain ⟨⟨⟨⟨⟨⟨⟨⟨⟨⟨h1, h2⟩, h3⟩, h4⟩, h5⟩, h6⟩, h7⟩, h8⟩, h9⟩, h10⟩, h11⟩ := h
  rw [tokenizeAux_cons, if_neg h1, if_neg h2, if_neg h3, if_neg h4, if_neg h5,
    if_neg h6, if_neg (by simp [h7]), if_neg h8, if_neg h9, if_neg h10, if_neg h11]

/-- One lexeme of the input text, paired below with the run of skipped
characters that follows it.  `strLit body` renders as `'"' ++ body ++ '"'`,
`numLit run` renders as the numeric run itself. -/
inductive Chunk where
  | leftBrace
  | rightBrace
  | comma
  | colon
  | leftBracket
  | rightBracket
  | strLit (body : List Char)
  | numLit (run : List Char)
  | kwTrue
  | kwFalse
  | kwNull

/-- The text of a lexeme. -/
def Chunk.render : Chunk → List Char
  | .leftBrace => ['{']
  | .rightBrace => ['}']
  | .comma => [',']
  | .colon => [':']
  | .leftBracket => ['[']
  | .rightBracket => [']']
  | .strLit body => '"' :: body ++ ['"']
  | .numLit run => run
  | .kwTrue => ['t', 'r', 'u', 'e']
  | .kwFalse => ['f', 'a', 'l', 's', 'e']
  | .kwNull => ['n', 'u', 'l', 'l']

/-- Well-formedness: a string body has no embedded quote, a numeric run
starts with a digit, consists of run characters, and passes float parsing. -/
def Chunk.wf : Chunk → Bool
  | .strLit body => body.all (fun c => c ≠ '"')
  | .numLit run =>
    (match run with
    | c :: _ => c.isDigit
    | [] => Bool.false) &&
    run.all isRunChar && (parseF64 run).isSome
  | _ => Bool.true

/-- The token a well-formed lexeme lexes to. -/
def Chunk.token : Chunk → JsonToken
  | .leftBrace => .leftBrace
  | .rightBrace => .rightBrace
  | .comma => .comma
  | .colon => .colon
  | .leftBracket => .leftBracket
  | .rightBracket => .rightBracket
  | .strLit body => .string body
  | .numLit run => .number ((parseF64 run).getD 0)
  | .kwTrue => .true
  | .kwFalse => .false
  | .kwNull => .null

def Chunk.isNum : Chunk → Bool
  | .numLit _ => Bool.true
  | _ => Bool.false

/-- A run of characters the tokenizer skips silently (whitespace runs are
the special case the claim inserts). -/
def padOK (w : List Char) : Bool := w.all (fun c => !startsToken c)

/-- A decomposition of an input text into lexemes, each followed by a run
of skipped characters.  The full text is a leading skipped run followed by
`assembleChunks`. -/
def assembleChunks : List (Chunk × List Char) → List Char
  | [] => []
  | (ch, w) :: rest => ch.render ++ w ++ assembleChunks rest

/-- Separation: a numeric run must be followed by a non-run character (the
pad's first character, or the next lexeme's first character when the pad is
empty), because `parse_int` would otherwise absorb it — and a numeric run
must not end the input, because `parse_int` then errors out. -/
def sepOK : List (Chunk × List Char) → Bool
  | [] => Bool.true
  | (ch, w) :: rest =>
    (if ch.isNum then
      (match w with
      | c :: _ => !isRunChar c
      | [] =>
        match rest with
        | (ch2, _) :: _ => !ch2.isNum
        | [] => Bool.false)
    else Bool.true) && sepOK rest

/-- All lexemes well formed, all pads skip-only, all separations satisfied. -/
def chunksOK (D : List (Chunk × List Char)) : Bool :=
  D.all (fun p => p.1.wf && padOK p.2) && sepOK D

/-- The token sequence of a decomposition. -/
def tokensOfChunks (D : List (Chunk × List Char)) : List JsonToken :=
  D.map (fun p => p.1.token)

theorem Chunk.render_ne_nil (ch : Chunk) (hwf : ch.wf = true) :
    1 ≤ ch.render.length := by
  cases ch <;> simp [Chunk.render]
  case numLit run =>
    cases run with
    | nil => simp [Chunk.wf] at hwf
    | cons c rest => simp

theorem Chunk.head_not_run (ch : Chunk) (hwf : ch.wf = true)
    (hnum : ch.isNum = false) :
    ∃ c r, ch.render = c :: r ∧ isRunChar c = false := by
  cases ch with
  | strLit body => exact ⟨'"', body ++ ['"'], rfl, by decide⟩
  | numLit run => simp [Chunk.isNum] at hnum
  | leftBrace => exact ⟨'{', [], rfl, by decide⟩
  | rightBrace => exact ⟨'}', [], rfl, by decide⟩
  | comma => exact ⟨',', [], rfl, by decide⟩
  | colon => exact ⟨':', [], rfl, by decide⟩
  | leftBracket => exact ⟨'[', [], rfl, by decide⟩
  | rightBracket => exact ⟨']', [], rfl, by decide⟩
  | kwTrue => exact ⟨'t', ['r', 'u', 'e'], rfl, by decide⟩
  | kwFalse => exact ⟨'f', ['a', 'l', 's', 'e'], rfl, by decide⟩
  | kwNull => exact ⟨'n', ['u', 'l', 'l'], rfl, by decide⟩

/-- Scanning one well-formed lexeme: the tokenizer consumes exactly its
text, emits exactly its token, and continues after it with the lexeme
appended to the consumed prefix.  For a numeric run the following
character must exist and stop the run, and the prefix consumed so far
must be single-byte text (otherwise `parse_int`'s byte slice desyncs). -/
theorem tokenizeAux_chunk (f : Nat) (pre : List Char) (ch : Chunk) (s : List Char)
    (hwf : ch.wf = true)
    (hpre : ∀ x ∈ pre, x.utf8Size = 1)
    (hsep : ch.isNum = true → ∃ c s', s = c :: s' ∧ isRunChar c = false) :
    tokenizeAux (f + 1) (ch.render ++ s) pre =
      consTok ch.token (tokenizeAux f s (pre ++ ch.render)) := by
  cases ch with
  | leftBrace =>
    show tokenizeAux (f + 1) ('{' :: s) pre = _
    rw [tokenizeAux_cons, if_pos rfl]
    rfl
  | rightBrace =>
    show tokenizeAux (f + 1) ('}' :: s) pre = _
    rw [tokenizeAux_cons, if_neg (by decide), if_pos rfl]
    rfl
  | comma =>
    show tokenizeAux (f + 1) (',' :: s) pre = _
    rw [tokenizeAux_cons, if_neg (by decide), if_neg (by decide), if_pos rfl]
    rfl
  | colon =>
    show tokenizeAux (f + 1) (':' :: s) pre = _
    rw [tokenizeAux_cons, if_neg (by decide), if_neg (by decide),
      if_neg (by decide), if_pos rfl]
    rfl
  | leftBracket =>
    show tokenizeAux (f + 1) ('[' :: s) pre = _
    rw [tokenizeAux_cons, if_neg (by decide), if_neg (by decide),
      if_neg (by decide), if_neg (by decide), if_pos rfl]
    rfl
  | rightBracket =>
    show tokenizeAux (f + 1) (']' :: s) pre = _
    rw [tokenizeAux_cons, if_neg (by decide), if_neg (by decide),
      if_neg (by decide), if_neg (by decide), if_neg (by decide), if_pos rfl]
    rfl
  | strLit body =>
    show tokenizeAux (f + 1) ('"' :: (body ++ ['"'] ++ s)) pre = _
    rw [tokenizeAux_cons, if_neg (by decide), if_neg (by decide),
      if_neg (by decide), if_neg (by decide), if_neg (by decide),
      if_neg (by decide), if_neg (by decide), if_pos rfl]
    have hbody : ∀ c ∈ body, c ≠ '"' := by
      intro c hc
      have := List.all_eq_true.mp hwf c hc
      simpa using this
    have hre : body ++ ['"'] ++ s = body ++ '"' :: s := by
      rw [List.append_assoc, List.singleton_append]
    rw [hre, parseString_closed body s (pre.length + 1) [] hbody]
    show consTok (.string body)
      (tokenizeAux f s (advance pre ('"' :: (body ++ '"' :: s)) s)) = _
    have hsplit : ('"' : Char) :: (body ++ '"' :: s) = ('"' :: body ++ ['"']) ++ s := by
      simp
    rw [hsplit, advance_append]
    rfl
  | numLit run =>
    obtain ⟨c', s', hs, hc'⟩ := hsep rfl
    subst hs
    simp only [Chunk.wf, Bool.and_eq_true] at hwf
    obtain ⟨⟨hhead, hall⟩, hsome⟩ := hwf
    cases run with
    | nil => simp at hhead
    | cons c runTail =>
      simp only at hhead
      have hall' : ∀ x ∈ runTail, isRunChar x = true := by
        intro x hx
        exact List.all_eq_true.mp hall x (List.mem_cons_of_mem c hx)
      have hacc1 : ∀ x ∈ [c], isRunChar x = true := by
        intro x hx
        rw [List.mem_singleton.mp hx, isRunChar, hhead]
        rfl
      obtain ⟨q, hq⟩ := Option.isSome_iff_exists.mp hsome
      show tokenizeAux (f + 1) (c :: (runTail ++ c' :: s')) pre = _
      rw [tokenizeAux_cons,
        if_neg (by rintro rfl; exact absurd hhead (by decide)),
        if_neg (by rintro rfl; exact absurd hhead (by decide)),
        if_neg (by rintro rfl; exact absurd hhead (by decide)),
        if_neg (by rintro rfl; exact absurd hhead (by decide)),
        if_neg (by rintro rfl; exact absurd hhead (by decide)),
        if_neg (by rintro rfl; exact absurd hhead (by decide)),
        if_pos hhead]
      rw [show (parseInt (runTail ++ c' :: s') pre [c]) =
          (match parseF64 ([c] ++ runTail) with
          | some q =>
            .ret (.ok (.number q, c' :: s',
              pre.length + List.length [c] + runTail.length))
          | none =>
            .ret (.error (.unexpectedCharacter c'
              (pre.length + List.length [c] + runTail.length))))
        from parseInt_run runTail s' c' pre [c] hall' hc' hpre hacc1]
      have hrunq : parseF64 ([c] ++ runTail) = some q := by
        rw [List.singleton_append]; exact hq
      rw [hrunq]
      show consTok (.number q)
        (tokenizeAux f (c' :: s')
          (advance pre (c :: (runTail ++ c' :: s')) (c' :: s'))) = _
      have hsplit : c :: (runTail ++ c' :: s') = (c :: runTail) ++ (c' :: s') := by
        simp
      rw [hsplit, advance_append]
      have h1 : Chunk.token (.numLit (c :: runTail)) = .number q := by
        simp [Chunk.token, hq]
      rw [h1]
      rfl
  | kwTrue =>
    show tokenizeAux (f + 1) ('t' :: (['r', 'u', 'e'] ++ s)) pre = _
    rw [tokenizeAux_cons, if_neg (by decide), if_neg (by decide),
      if_neg (by decide), if_neg (by decide), if_neg (by decide),
      if_neg (by decide), if_neg (by decide), if_neg (by decide), if_pos rfl]
    rw [show (parseKeyword (['r', 'u', 'e'] ++ s) (pre.length + 1) ['r', 'u', 'e'] JsonToken.true) =
        .ok (.true, s, pre.length + 1 + 3) from parseKeyword_success _ s (pre.length + 1) _]
    show consTok .true
      (tokenizeAux f s (advance pre ('t' :: (['r', 'u', 'e'] ++ s)) s)) = _
    have hsplit : ('t' : Char) :: (['r', 'u', 'e'] ++ s) = ['t', 'r', 'u', 'e'] ++ s := rfl
    rw [hsplit, advance_append]
    rfl
  | kwFalse =>
    show tokenizeAux (f + 1) ('f' :: (['a', 'l', 's', 'e'] ++ s)) pre = _
    rw [tokenizeAux_cons, if_neg (by decide), if_neg (by decide),
      if_neg (by decide), if_neg (by decide), if_neg (by decide),
      if_neg (by decide), if_neg (by decide), if_neg (by decide),
      if_neg (by decide), if_pos rfl]
    rw [show (parseKeyword (['a', 'l', 's', 'e'] ++ s) (pre.length + 1) ['a', 'l', 's', 'e'] JsonToken.false) =
        .ok (.false, s, pre.length + 1 + 4) from parseKeyword_success _ s (pre.length + 1) _]
    show consTok .false
      (tokenizeAux f s (advance pre ('f' :: (['a', 'l', 's', 'e'] ++ s)) s)) = _
    have hsplit : ('f' : Char) :: (['a', 'l', 's', 'e'] ++ s) = ['f', 'a', 'l', 's', 'e'] ++ s := rfl
    rw [hsplit, advance_append]
    rfl
  | kwNull =>
    show tokenizeAux (f + 1) ('n' :: (['u', 'l', 'l'] ++ s)) pre = _
    rw [tokenizeAux_cons, if_neg (by decide), if_neg (by decide),
      if_neg (by decide), if_neg (by decide), if_neg (by decide),
      if_neg (by decide), if_neg (by decide), if_neg (by decide),
      if_neg (by decide), if_neg (by decide), if_pos rfl]
    rw [show (parseKeyword (['u', 'l', 'l'] ++ s) (pre.length + 1) ['u', 'l', 'l'] JsonToken.null) =
        .ok (.null, s, pre.length + 1 + 3) from parseKeyword_success _ s (pre.length + 1) _]
    show consTok .null
      (tokenizeAux f s (advance pre ('n' :: (['u', 'l', 'l'] ++ s)) s)) = _
    have hsplit : ('n' : Char) :: (['u', 'l', 'l'] ++ s) = ['n', 'u', 'l', 'l'] ++ s := rfl
    rw [hsplit, advance_append]
    rfl

/-- Tokenizing a decomposed single-byte text: any leading skipped run, any
well-formed lexemes, any inter-lexeme skipped runs — the result is exactly
the lexemes' tokens.  In particular the result does not depend on the
skipped runs.  The single-byte hypotheses keep `parse_int`'s byte-indexed
slice aligned with the character cursor (a multi-byte character anywhere
before a numeric run desynchronizes or panics — see the C7 and C10
counterexamples). -/
theorem tokenize_chunks : ∀ (D : List (Chunk × List Char)) (w0 : List Char),
    padOK w0 = true → chunksOK D = true → ∀ f (pre : List Char),
    (∀ c ∈ pre, c.utf8Size = 1) →
    (∀ c ∈ w0 ++ assembleChunks D, c.utf8Size = 1) →
    (w0 ++ assembleChunks D).length < f →
    tokenizeAux f (w0 ++ assembleChunks D) pre =
      some (.ret (.ok (tokensOfChunks D))) := by
  intro D
  induction D with
  | nil =>
    intro w0 hw0 _
    induction w0 with
    | nil =>
      intro f pre _ _ hf
      cases f with
      | zero => exact absurd hf (by simp)
      | succ f => rfl
    | cons c w0' ihw =>
      intro f pre hpre htext hf
      cases f with
      | zero => exact absurd hf (by simp)
      | succ f =>
        simp only [padOK, List.all_cons, Bool.and_eq_true,
          Bool.not_eq_true'] at hw0
        have hc : startsToken c = false := hw0.1
        have hw0tl : padOK w0' = true := hw0.2
        rw [List.cons_append,
          tokenizeAux_skip f c (w0' ++ assembleChunks []) pre hc]
        refine ihw hw0tl f (pre ++ [c]) ?_ ?_ ?_
        · intro x hx
          rcases List.mem_append.mp hx with h | h
          · exact hpre x h
          · rw [List.mem_singleton.mp h]
            exact htext c (by rw [List.cons_append]; exact List.mem_cons_self _ _)
        · intro x hx
          exact htext x (by rw [List.cons_append]; exact List.mem_cons_of_mem c hx)
        · rw [List.cons_append, List.length_cons] at hf
          omega
  | cons hd tl ihD =>
    obtain ⟨ch, w⟩ := hd
    intro w0 hw0 hok
    induction w0 with
    | cons c w0' ihw =>
      intro f pre hpre htext hf
      cases f with
      | zero => exact absurd hf (by simp)
      | succ f =>
        simp only [padOK, List.all_cons, Bool.and_eq_true,
          Bool.not_eq_true'] at hw0
        have hc : startsToken c = false := hw0.1
        have hw0tl : padOK w0' = true := hw0.2
        rw [List.cons_append,
          tokenizeAux_skip f c (w0' ++ assembleChunks ((ch, w) :: tl)) pre hc]
        refine ihw hw0tl f (pre ++ [c]) ?_ ?_ ?_
        · intro x hx
          rcases List.mem_append.mp hx with h | h
          · exact hpre x h
          · rw [List.mem_singleton.mp h]
            exact htext c (by rw [List.cons_append]; exact List.mem_cons_self _ _)
        · intro x hx
          exact htext x (by rw [List.cons_append]; exact List.mem_cons_of_mem c hx)
        · rw [List.cons_append, List.length_cons] at hf
          omega
    | nil =>
      intro f pre hpre htext hf
      cases f with
      | zero => exact absurd hf (by simp)
      | succ f =>
        have hok' := hok
        simp only [chunksOK, List.all_cons, Bool.and_eq_true] at hok'
        obtain ⟨⟨⟨hwf, hpad⟩, halltl⟩, hsepc⟩ := hok'
        have hsep2 := hsepc
        simp only [sepOK, Bool.and_eq_true] at hsep2
        obtain ⟨hsephd, hseptl⟩ := hsep2
        have hoktl : chunksOK tl = true := by
          rw [chunksOK, Bool.and_eq_true]
          exact ⟨halltl, hseptl⟩
        have hsepOKcond : ch.isNum = true →
            ∃ c s', w ++ assembleChunks tl = c :: s' ∧ isRunChar c = false := by
          intro hnum
          rw [if_pos hnum] at hsephd
          cases w with
          | cons cw wrest =>
            simp only [Bool.not_eq_eq_eq_not, Bool.not_true] at hsephd
            exact ⟨cw, wrest ++ assembleChunks tl, by rw [List.cons_append], hsephd⟩
          | nil =>
            cases tl with
            | nil => simp at hsephd
            | cons hd2 tl2 =>
              obtain ⟨ch2, w2⟩ := hd2
              simp only [Bool.not_eq_eq_eq_not, Bool.not_true] at hsephd
              have hwf2 : ch2.wf = true := by
                simp only [List.all_cons, Bool.and_eq_true] at halltl
                exact halltl.1.1
              obtain ⟨c2, r2, hr2, hc2⟩ := Chunk.head_not_run ch2 hwf2 hsephd
              refine ⟨c2, r2 ++ (w2 ++ assembleChunks tl2), ?_, hc2⟩
              show assembleChunks ((ch2, w2) :: tl2) = _
              rw [assembleChunks, hr2]
              simp [List.append_assoc]
        rw [List.nil_append] at hf htext ⊢
        have htext' : ∀ x ∈ w ++ assembleChunks tl, x.utf8Size = 1 := by
          intro x hx
          apply htext
          rw [assembleChunks, List.append_assoc]
          exact List.mem_append.mpr (Or.inr hx)
        have hpre' : ∀ x ∈ pre ++ ch.render, x.utf8Size = 1 := by
          intro x hx
          rcases List.mem_append.mp hx with h | h
          · exact hpre x h
          · apply htext
            rw [assembleChunks, List.append_assoc]
            exact List.mem_append.mpr (Or.inl h)
        show tokenizeAux (f + 1) (assembleChunks ((ch, w) :: tl)) pre = _
        rw [assembleChunks, List.append_assoc,
          tokenizeAux_chunk f pre ch (w ++ assembleChunks tl) hwf hpre hsepOKcond]
        have hbound : (w ++ assembleChunks tl).length < f := by
          have h1 := Chunk.render_ne_nil ch hwf
          rw [assembleChunks] at hf
          simp only [List.length_append] at hf ⊢
          omega
        rw [ihD w hpad hoktl f (pre ++ ch.render) hpre' htext' hbound]
        rfl

/-- The byte-slice desynchronization evaluated on `é-1..,`: the two-byte
`é` and the skipped `-` shift the byte offsets, `parse_int`'s slice
`&input[2..5]` lands on `-1.`, and Rust's float parser accepts it as
`-1.0` — a `Number` token cut just before the second dot. -/
theorem tokenize_eAcute_num :
    tokenize "é-1..,".toList = .ret (.ok [.number (-1), .comma]) := by
  have h1 : tokenize "é-1..,".toList =
      .ret (.ok [.number ((parseF64 ['-', '1', '.']).getD 0), .comma]) := by rfl
  have h2 : (parseF64 ['-', '1', '.']).getD 0 = (-1 : ℚ) := by
    simp [parseF64, parseF64Core, digitsVal]
  rw [h2] at h1
  exact h1

/-! ## The claims -/

/-- C1: the claim says every valid scalar literal input — `true`, `false`,
`null`, a plain decimal number, a quoted string — tokenizes and parses to
the matching Value.  This holds for the keyword and string literals, but a
bare number fails: `parse_int` has no success path when the numeric run
reaches the end of the input, so `tokenize("1")` returns
`UnexpectedCharacter('\0', 2)` instead of `Number(1.0)`.  This theorem
evaluates the code at the failing inputs and confirms the other four
literal classes. -/
theorem claim_C1_code_evaluation :
    tokenize "1".toList = .ret (.error (.unexpectedCharacter '\x00' 2)) ∧
    tokenize "7.5".toList = .ret (.error (.unexpectedCharacter '\x00' 4)) ∧
    (tokenize "true".toList = .ret (.ok [.true]) ∧
      parseTokens [.true] = .ok (.bool Bool.true)) ∧
    (tokenize "false".toList = .ret (.ok [.false]) ∧
      parseTokens [.false] = .ok (.bool Bool.false)) ∧
    (tokenize "null".toList = .ret (.ok [.null]) ∧ parseTokens [.null] = .ok .null) ∧
    (tokenize "\"ab\"".toList = .ret (.ok [.string ['a', 'b']]) ∧
      parseTokens [.string ['a', 'b']] = .ok (.string ['a', 'b'])) := by
  exact ⟨rfl, rfl, ⟨rfl, rfl⟩, ⟨rfl, rfl⟩, ⟨rfl, rfl⟩, ⟨rfl, rfl⟩⟩

/-- C2, counterexample: for the input `{"a":1` tokenization does not even
succeed (the trailing number reaches end of input), so "tokenizing succeeds
and parsing returns UnexpectedEnd" is false. -/
theorem claim_C2_counterexample :
    ¬ ∃ ts, tokenize ['{', '"', 'a', '"', ':', '1'] = .ret (.ok ts) ∧
      parseTokens ts = .error .unexpectedEnd := by
  rintro ⟨ts, hts, -⟩
  rw [show tokenize ['{', '"', 'a', '"', ':', '1'] =
      .ret (.error (.unexpectedCharacter '\x00' 7)) from rfl] at hts
  exact absurd hts (by simp)

/-- C2, amended: on `{"a":1` the tokenizer itself fails with
`UnexpectedCharacter('\0', 7)`; and even on the token sequence the spec
intends for this text, the parser reports `UnexpectedToken(String "a")` —
the key token — rather than `UnexpectedEnd`, because `parse_object`'s
catch-all arm after a pair also captures the out-of-tokens case. -/
theorem claim_C2_amended :
    tokenize ['{', '"', 'a', '"', ':', '1'] =
      .ret (.error (.unexpectedCharacter '\x00' 7)) ∧
    parseTokens [.leftBrace, .string ['a'], .colon, .number 1] =
      .error (.unexpectedToken (.string ['a'])) := by
  exact ⟨rfl, rfl⟩

/-- C3: the input `{"a":1,"b":[true,false,null]}` tokenizes and parses to
`Object([("a", Number(1)), ("b", Array([Bool(true), Bool(false), Null]))])`,
with object pairs and array elements in encounter order. -/
theorem claim_C3_nested_document :
    tokenize ['{', '"', 'a', '"', ':', '1', ',', '"', 'b', '"', ':', '[',
      't', 'r', 'u', 'e', ',', 'f', 'a', 'l', 's', 'e', ',', 'n', 'u', 'l', 'l',
      ']', '}'] =
      .ret (.ok [.leftBrace, .string ['a'], .colon, .number 1, .comma,
        .string ['b'], .colon, .leftBracket, .true, .comma, .false, .comma,
        .null, .rightBracket, .rightBrace]) ∧
    parseTokens [.leftBrace, .string ['a'], .colon, .number 1, .comma,
        .string ['b'], .colon, .leftBracket, .true, .comma, .false, .comma,
        .null, .rightBracket, .rightBrace] =
      .ok (.object [(['a'], .number 1),
        (['b'], .array [.bool Bool.true, .bool Bool.false, .null])]) := by
  exact ⟨rfl, rfl⟩

/-- C4, counterexample: the token sequence `[{, "a"]` is exhausted before
the object grammar rule completes, yet the parser returns
`UnexpectedToken(String "a")` — not `UnexpectedEnd`, and not a token at the
failure position (there is none). -/
theorem claim_C4_counterexample :
    parseTokens [.leftBrace, .string ['a']] =
      .error (.unexpectedToken (.string ['a'])) ∧
    ParseError.unexpectedToken (.string ['a']) ≠ ParseError.unexpectedEnd := by
  exact ⟨rfl, by simp⟩

/-- C4, amended: `UnexpectedEnd` is returned exactly when the sequence is
exhausted at a value-dispatch, object-key, or array-element position
(conjuncts 1, 3, 9).  In top-level dispatch and at the key position,
`UnexpectedToken` carries the actually-offending token (conjuncts 2, 4).
But after an object key — expecting a colon (5, 6) or the comma/close after
a pair (7, 8) — the parser returns `UnexpectedToken` carrying the *key*
token, both on a wrong token and on exhaustion; and after an array element
(10, 11) it carries the element's *first* token, both on a wrong token and
on exhaustion. -/
theorem claim_C4_amended :
    (parseVal [] = .error .unexpectedEnd) ∧
    (∀ t rest, (t = .rightBrace ∨ t = .rightBracket ∨ t = .colon ∨ t = .comma) →
      parseVal (t :: rest) = .error (.unexpectedToken t)) ∧
    (∀ acc, parseObject [] acc = .error .unexpectedEnd) ∧
    (∀ t rest acc, t ≠ .rightBrace → (∀ s, t ≠ .string s) →
      parseObject (t :: rest) acc = .error (.unexpectedToken t)) ∧
    (∀ key acc, parseObject [.string key] acc =
      .error (.unexpectedToken (.string key))) ∧
    (∀ key t2 rest2 acc, t2 ≠ .colon →
      parseObject (.string key :: t2 :: rest2) acc =
        .error (.unexpectedToken (.string key))) ∧
    (∀ key rest2 acc v n, parseVal rest2 = .ok (v, n) → rest2.drop n = [] →
      parseObject (.string key :: .colon :: rest2) acc =
        .error (.unexpectedToken (.string key))) ∧
    (∀ key rest2 acc v n t3 rest4, parseVal rest2 = .ok (v, n) →
      rest2.drop n = t3 :: rest4 → t3 ≠ .comma → t3 ≠ .rightBrace →
      parseObject (.string key :: .colon :: rest2) acc =
        .error (.unexpectedToken (.string key))) ∧
    (∀ acc, parseArray [] acc = .error .unexpectedEnd) ∧
    (∀ t rest acc v n, t ≠ .rightBracket → parseVal (t :: rest) = .ok (v, n) →
      (t :: rest).drop n = [] →
      parseArray (t :: rest) acc = .error (.unexpectedToken t)) ∧
    (∀ t rest acc v n t3 rest4, t ≠ .rightBracket →
      parseVal (t :: rest) = .ok (v, n) → (t :: rest).drop n = t3 :: rest4 →
      t3 ≠ .comma → t3 ≠ .rightBracket →
      parseArray (t :: rest) acc = .error (.unexpectedToken t)) := by
  refine ⟨parseVal_nil, ?_, parseObject_nil, ?_, ?_, ?_, ?_, ?_, parseArray_nil, ?_, ?_⟩
  · intro t rest ht
    exact parseVal_structural t rest ht
  · intro t rest acc h1 h2
    exact parseObject_badkey t rest acc h1 h2
  · intro key acc
    exact parseObject_string_nil key acc
  · intro key t2 rest2 acc ht
    exact parseObject_string_noncolon key t2 rest2 acc ht
  · intro key rest2 acc v n hv hd
    rw [parseObject_string_colon, hv]
    dsimp only
    rw [hd]
  · intro key rest2 acc v n t3 rest4 hv hd h3 h4
    rw [parseObject_string_colon, hv]
    dsimp only
    rw [hd]
    cases t3 with
    | comma => exact absurd rfl h3
    | rightBrace => exact absurd rfl h4
    | _ => rfl
  · intro t rest acc v n ht hv hd
    rw [parseArray_cons_ne t rest acc ht, hv]
    dsimp only
    rw [hd]
  · intro t rest acc v n t3 rest4 ht hv hd h3 h4
    rw [parseArray_cons_ne t rest acc ht, hv]
    dsimp only
    rw [hd]
    cases t3 with
    | comma => exact absurd rfl h3
    | rightBracket => exact absurd rfl h4
    | _ => rfl

/-- Witness for C4: a key token followed by a comma instead of a colon is
reported as `UnexpectedToken` of the key. -/
theorem claim_C4_witness :
    parseObject [.string ['a'], .comma] [] =
      .error (.unexpectedToken (.string ['a'])) := by
  exact claim_C4_amended.2.2.2.2.2.1 ['a'] .comma [] [] (by simp)

/-- C5, counterexample: the input consisting of a single `"` has length 1,
but the unterminated-string error reports position 2, not the input length. -/
theorem claim_C5_counterexample :
    tokenize ['"'] = .ret (.error (.unexpectedCharacter '"' 2)) ∧
    tokenize ['"'] ≠ .ret (.error (.unexpectedCharacter '"' 1)) := by
  constructor
  · rfl
  · rw [show tokenize ['"'] = .ret (.error (.unexpectedCharacter '"' 2)) from rfl]
    simp

/-- C5, amended: an unterminated string reports `'"'` at the position one
past the input (the cursor after the failed read): `parse_string` entered
with `k` characters consumed and `s` remaining reports `k + s.length + 1`,
and tokenizing an input that is a `"` followed by quote-free text reports
position `input length + 1`. -/
theorem claim_C5_amended :
    (∀ s k acc, (∀ c ∈ s, c ≠ '"') →
      parseString s k acc = .error (.unexpectedCharacter '"' (k + s.length + 1))) ∧
    (∀ s, (∀ c ∈ s, c ≠ '"') →
      tokenize ('"' :: s) = .ret (.error (.unexpectedCharacter '"' (s.length + 2)))) := by
  constructor
  · exact parseString_unterminated
  · intro s hs
    rw [tokenize]
    rw [show ('"' :: s).length + 1 = s.length + 1 + 1 from by
      simp [List.length_cons]]
    rw [tokenizeAux_cons, if_neg (by decide), if_neg (by decide),
      if_neg (by decide), if_neg (by decide), if_neg (by decide),
      if_neg (by decide), if_neg (by decide), if_pos rfl]
    rw [show (List.length ([] : List Char) + 1) = 1 from rfl,
      parseString_unterminated s 1 [] hs]
    rw [show 1 + s.length + 1 = s.length + 2 from by omega]
    rfl

/-- Witness for C5 (amended): `"a` reports `UnexpectedCharacter('"', 3)`. -/
theorem claim_C5_witness :
    tokenize ['"', 'a'] = .ret (.error (.unexpectedCharacter '"' 3)) := by
  exact claim_C5_amended.2 ['a'] (by simp)

/-- C6, counterexample.  First half: on `1..2,` the tokenizer does error,
but the error `UnexpectedCharacter(',', 4)` pairs the character *after*
the run with the position of the *last run character*: the input character
at 1-based position 4 is `'2'`, not the reported `','`; nor is the
reported character the offending second dot.  Second half: the claim's
"always a TokenizeError, never a truncated Number" is itself false once a
multi-byte character precedes the run: on `é-1..,` the two-dot run `1..`
is sliced with character counts used as **byte** offsets, the slice comes
out as `-1.` (truncated just before the second dot), Rust's float parser
accepts it, and tokenize returns `Ok([Number(-1.0), Comma])`. -/
theorem claim_C6_counterexample :
    (tokenize "1..2,".toList = .ret (.error (.unexpectedCharacter ',' 4)) ∧
      "1..2,".toList[3]? ≠ some ',' ∧ (',' : Char) ≠ '.') ∧
    (tokenize "é-1..,".toList = .ret (.ok [.number (-1), .comma]) ∧
      2 ≤ "1..".toList.count '.') := by
  exact ⟨⟨rfl, by simp, by simp⟩, ⟨tokenize_eAcute_num, by decide⟩⟩

/-- C6, amended: when the input up to the numeric run is single-byte text
(so the byte-indexed slice `&input[start..pos]` coincides with the run),
a run containing two or more dots always yields a `TokenizeError`, never a
truncated `Number` token; the error carries the character immediately
after the run at the 1-based position of the last run character (the count
of characters consumed after the rewind), or `'\0'` one past the input
when the run reaches end of input.  Without the single-byte restriction
the error case can silently become a truncated `Number` (see the
counterexample) or a panic (see C10). -/
theorem claim_C6_amended :
    (∀ run rest c pre acc, (∀ x ∈ run, isRunChar x = true) → isRunChar c = false →
      (∀ x ∈ pre, x.utf8Size = 1) → (∀ x ∈ acc, isRunChar x = true) →
      2 ≤ (acc ++ run).count '.' →
      parseInt (run ++ c :: rest) pre acc =
        .ret (.error (.unexpectedCharacter c
          (pre.length + acc.length + run.length)))) ∧
    (∀ run pre acc, (∀ x ∈ run, isRunChar x = true) →
      parseInt run pre acc =
        .ret (.error (.unexpectedCharacter '\x00'
          (pre.length + acc.length + run.length + 1)))) := by
  constructor
  · intro run rest c pre acc hrun hc hpre hacc hdots
    rw [parseInt_run run rest c pre acc hrun hc hpre hacc,
      parseF64_two_dots (acc ++ run) hdots]
  · exact parseInt_eof

/-- Witness for C6 (amended): the `parse_int` call made by
`tokenize "1..2,"` (empty consumed prefix, accumulator `"1"`). -/
theorem claim_C6_witness :
    parseInt ['.', '.', '2', ','] [] ['1'] =
      .ret (.error (.unexpectedCharacter ',' 4)) := by
  exact claim_C6_amended.1 ['.', '.', '2'] [] ',' [] ['1'] (by decide) (by decide)
    (by decide) (by decide) (by decide)

/-- C7, counterexample: whitespace-insensitivity is false of the code.
The input `é-1..,` tokenizes to `Ok([Number(-1.0), Comma])` (the `é` and
`-` are silently skipped, and `parse_int`'s byte-indexed slice lands on
`-1.`), but inserting a single space — a whitespace character — in the
skipped run before the number token changes the result to
`Err(UnexpectedCharacter(',', 6))`: the byte slice now lands on ` 1.`,
which Rust's float parser rejects.  So inserting whitespace between
tokens can change the token sequence and turn success into an error,
and a skipped (unrecognized) character can change the result. -/
theorem claim_C7_counterexample :
    tokenize "é-1..,".toList = .ret (.ok [.number (-1), .comma]) ∧
    tokenize "é- 1..,".toList = .ret (.error (.unexpectedCharacter ',' 6)) ∧
    isWsChar ' ' = true := by
  exact ⟨tokenize_eAcute_num, by rfl, rfl⟩

/-- C7, amended: over single-byte text (every character one UTF-8 byte,
which covers all ASCII inputs) the claim holds.  First conjunct: for any
decomposition of such a text into well-formed lexemes and runs of skipped
characters, the token sequence — and hence the parsed Value — depends
only on the lexemes, so inserting arbitrary runs of space/tab/newline
between the tokens changes neither.  Second conjunct: a character that
starts no token (whitespace or any unrecognized single character) is
silently skipped — consumed with no token emitted and no error.  Third
conjunct: space, tab and newline start no token and are single-byte. -/
theorem claim_C7_amended :
    (∀ (w0 w0' : List Char) (D D' : List (Chunk × List Char)),
      padOK w0 = true → padOK w0' = true → chunksOK D = true → chunksOK D' = true →
      (∀ c ∈ w0 ++ assembleChunks D, c.utf8Size = 1) →
      (∀ c ∈ w0' ++ assembleChunks D', c.utf8Size = 1) →
      D.map Prod.fst = D'.map Prod.fst →
      tokenize (w0 ++ assembleChunks D) = tokenize (w0' ++ assembleChunks D') ∧
      (∀ ts ts', tokenize (w0 ++ assembleChunks D) = .ret (.ok ts) →
        tokenize (w0' ++ assembleChunks D') = .ret (.ok ts') →
        parseTokens ts = parseTokens ts')) ∧
    (∀ f c s (pre : List Char), startsToken c = false →
      tokenizeAux (f + 1) (c :: s) pre = tokenizeAux f s (pre ++ [c])) ∧
    (∀ c, isWsChar c = true → startsToken c = false ∧ c.utf8Size = 1) := by
  refine ⟨?_, tokenizeAux_skip, ?_⟩
  · intro w0 w0' D D' hw0 hw0' hD hD' hB hB' hfst
    have h1 : tokenize (w0 ++ assembleChunks D) = .ret (.ok (tokensOfChunks D)) := by
      rw [tokenize, tokenize_chunks D w0 hw0 hD _ []
        (by intro x hx; exact absurd hx (List.not_mem_nil x)) hB
        (Nat.lt_succ_self _)]
      rfl
    have h2 : tokenize (w0' ++ assembleChunks D') = .ret (.ok (tokensOfChunks D')) := by
      rw [tokenize, tokenize_chunks D' w0' hw0' hD' _ []
        (by intro x hx; exact absurd hx (List.not_mem_nil x)) hB'
        (Nat.lt_succ_self _)]
      rfl
    have htoks : tokensOfChunks D = tokensOfChunks D' := by
      rw [tokensOfChunks, tokensOfChunks,
        show (fun p : Chunk × List Char => p.1.token) = Chunk.token ∘ Prod.fst
          from rfl,
        ← List.map_map, ← List.map_map, hfst]
    constructor
    · rw [h1, h2, htoks]
    · intro ts ts' hts hts'
      rw [h1] at hts
      rw [h2] at hts'
      have e1 : ts = tokensOfChunks D := by
        injection hts with h
        injection h with h
        exact h.symm
      have e2 : ts' = tokensOfChunks D' := by
        injection hts' with h
        injection h with h
        exact h.symm
      rw [e1, e2, htoks]
  · intro c hc
    have : (c = ' ' ∨ c = '\t') ∨ c = '\n' := by
      simpa [isWsChar] using hc
    rcases this with (h | h) | h <;> rw [h] <;> exact ⟨by decide, by decide⟩

/-- Witness for C7 (amended): `true` bare, and with whitespace runs
inserted before and after, produce the same tokenization and the same
parse. -/
theorem claim_C7_witness :
    tokenize ['t', 'r', 'u', 'e'] = tokenize [' ', ' ', 't', 'r', 'u', 'e', ' ', '\n'] := by
  exact (claim_C7_amended.1 [] [' ', ' ']
    [(Chunk.kwTrue, [])] [(Chunk.kwTrue, [' ', '\n'])]
    (by decide) (by decide) (by decide) (by decide) (by decide) (by decide) rfl).1

/-- C8: the parser never requires its cursor to reach the end of the token
sequence: if `parse` succeeds on a sequence, appending arbitrary trailing
tokens preserves both success and the returned value (equivalently, a
sequence beginning with a complete top-level value parses to that value
regardless of what follows). -/
theorem claim_C8_trailing_tokens :
    ∀ ts extra v, parseTokens ts = .ok v → parseTokens (ts ++ extra) = .ok v := by
  intro ts extra v h
  rw [parseTokens] at h
  cases hv : parseVal ts with
  | error e => rw [hv] at h; exact absurd h (by simp)
  | ok vn =>
    obtain ⟨v0, n⟩ := vn
    rw [hv] at h
    dsimp only at h
    have hvE := (parse_append ts.length).1 ts extra v0 n rfl hv
    rw [parseTokens, hvE]
    exact h

/-- Witness for C8: `null` followed by stray colons still parses to `Null`. -/
theorem claim_C8_witness :
    parseTokens [JsonToken.null, .colon, .colon] = .ok .null := by
  exact claim_C8_trailing_tokens [JsonToken.null] [.colon, .colon] .null rfl

/-- C9: `tru` fails to tokenize with the error at position 4, the position
of the missing `e` (`'\0'` is the reported character at end of input); in
general a keyword mismatch after an agreeing prefix reports the mismatched
input character at its 1-based position, and running out of input
mid-keyword reports `'\0'` one past the input. -/
theorem claim_C9_keyword_errors :
    tokenize "tru".toList = .ret (.error (.unexpectedCharacter '\x00' 4)) ∧
    (∀ com c rest e kwRest tok k, c ≠ e →
      parseKeyword (com ++ c :: rest) k (com ++ e :: kwRest) tok =
        .error (.unexpectedCharacter c (k + com.length + 1))) ∧
    (∀ com e kwRest tok k,
      parseKeyword com k (com ++ e :: kwRest) tok =
        .error (.unexpectedCharacter '\x00' (k + com.length + 1))) := by
  refine ⟨rfl, ?_, ?_⟩
  · intro com c rest e kwRest tok k hne
    exact parseKeyword_mismatch com c rest e kwRest tok k hne
  · intro com e kwRest tok k
    exact parseKeyword_eof com e kwRest tok k

/-- Witness for C9: the `parse_keyword` call made by `tokenize "trye"`
reports the mismatching `'y'` at its position 3. -/
theorem claim_C9_witness :
    parseKeyword ['r', 'y', 'e'] 1 ['r', 'u', 'e'] JsonToken.true =
      .error (.unexpectedCharacter 'y' 3) := by
  exact claim_C9_keyword_errors.2.1 ['r'] 'y' ['e'] 'u' ['e'] JsonToken.true 1
    (by decide)

/-- C10, counterexample: tokenize is *not* total in the claimed sense of
"terminates returning Ok or Err".  On the input `é1 ` the numeric run
starts after a two-byte character, so `parse_int`'s slice
`&input[1..2]` (character counts used as byte indices) starts inside the
`é` — not a character boundary — and the program panics.  The run is
neither an `Ok` nor an `Err` outcome. -/
theorem claim_C10_counterexample :
    tokenize "é1 ".toList = .panicked ∧
    (∀ r : Except TokenizeError (List JsonToken),
      tokenize "é1 ".toList ≠ .ret r) := by
  constructor
  · rfl
  · intro r h
    rw [show tokenize "é1 ".toList = .panicked from rfl] at h
    exact Outcome.noConfusion h

/-- C10, amended: the tokenizer loop always *terminates* within
`length + 1` iterations (each iteration consumes at least one character,
despite the single-step rewinds — conjunct 1; conjuncts 3, 4, 5: the
scanning helpers never move the cursor past the remaining input), but the
outcome can be a panic rather than Ok or Err (see the counterexample);
`parse_int` returns a successful token only with the cursor inside the
input.  The parser side is total as claimed: the mutually recursive
parser terminates within `2·length + 1` recursive calls (each call either
consumes a token or is the single rewound re-read of an array element's
first token) — conjunct 2 — and a successful `parse` consumes at least
one and at most all tokens (conjunct 6). -/
theorem claim_C10_amended :
    (∀ s (pre : List Char), tokenizeAux (s.length + 1) s pre ≠ none) ∧
    (∀ ts, parseValAux (2 * ts.length + 1) ts ≠ none) ∧
    (∀ rem pre acc t rem' k', parseInt rem pre acc = .ret (.ok (t, rem', k')) →
      rem'.length ≤ rem.length) ∧
    (∀ rem k acc t rem' k', parseString rem k acc = .ok (t, rem', k') →
      rem'.length ≤ rem.length) ∧
    (∀ kw rem k tok t rem' k', parseKeyword rem k kw tok = .ok (t, rem', k') →
      rem'.length ≤ rem.length) ∧
    (∀ ts v n, parseVal ts = .ok (v, n) → 1 ≤ n ∧ n ≤ ts.length) := by
  refine ⟨?_, ?_, parseInt_ok_length, parseString_ok_length,
    parseKeyword_ok_length, ?_⟩
  · intro s pre
    obtain ⟨r, hr⟩ := tokenizeAux_fuel_sufficient (s.length + 1) s pre
      (Nat.lt_succ_self _)
    rw [hr]
    simp
  · intro ts
    obtain ⟨r, hr⟩ := (parseAux_fuel_sufficient (2 * ts.length + 1)).1 ts
      (Nat.le_refl _)
    rw [hr]
    simp
  · intro ts v n h
    exact (parse_consumes ts.length).1 ts v n rfl h

/-- Witness for C10 (amended): a successful concrete parse consumes one
token within the bounds. -/
theorem claim_C10_witness :
    1 ≤ 1 ∧ 1 ≤ [JsonToken.null].length := by
  exact claim_C10_amended.2.2.2.2.2 [JsonToken.null] .null 1 rfl

end RustJson
